import Mathlib

/-!
Verification of the scriptaseq tree / property-binder core.

Python strings are modelled as lists of characters (`PyStr`), Python object
references as natural-number ids into explicit stores, and raised exceptions
as values of the `PyErr` type, one constructor per raise site category.
All definitions are transcribed from the repository sources
(`scriptaseq/named_tree_node.py`, `scriptaseq/seq_node.py`,
`scriptaseq/prop_binder.py`, `scriptaseq/util/scripts.py`,
`scriptaseq/internal/project_change_controllers/project_tree_controller.py`).
-/

/-- Python strings, modelled as lists of characters. -/
abbrev PyStr := List Char

/-- Exception values.  Python raises ValueError/TypeError/AttributeError with a
message; each constructor here stands for one raise site category. -/
inductive PyErr where
  /-- ValueError: node name must not be empty (NamedTreeNode.verify_name_valid). -/
  | emptyName
  /-- ValueError: node name must not contain the separator (NamedTreeNode.verify_name_valid). -/
  | sepInName
  /-- ValueError: node is not allowed to have children (NamedTreeNode.verify_child_name_available). -/
  | notAllowedChildren
  /-- ValueError: node already has a child with that name (NamedTreeNode.verify_child_name_available). -/
  | nameConflict
  /-- ValueError: cannot make a node a child of itself (NamedTreeNode.verify_can_add_as_child). -/
  | selfChild
  /-- ValueError: operation would create a cycle in the tree (NamedTreeNode.verify_can_add_as_child). -/
  | cycleErr
  /-- ValueError: cannot reparent root project tree node (ProjectTreeController.reparent_node). -/
  | rootReparent
  /-- ValueError: cannot make a new root project tree node (ProjectTreeController.reparent_node). -/
  | newRoot
  /-- KeyError from `del d[k]` on a missing key. -/
  | keyError
  /-- TypeError from calling a non-callable object. -/
  | typeErrorNotCallable
  /-- AttributeError from reading a missing attribute. -/
  | attributeError
  /-- UserScriptError (scriptaseq.util.scripts), carrying its message. -/
  | userScriptError (msg : String)
deriving DecidableEq

deriving instance DecidableEq for Except

/-! ## Path codec (named_tree_node.py, TreeNamePath) -/

/-- Separator used when encoding a node name path as a string (source:
`NAME_PATH_SEPARATOR = '/'`, the single disallowed substring in names). -/
def NAME_PATH_SEPARATOR : Char := '/'

/-- NamedTreeNode.verify_name_valid: raises ValueError if the name is empty or
contains a disallowed substring (the separator is the only one, and it is a
single character, so substring containment is character membership). -/
def verify_name_valid (name : PyStr) : Except PyErr Unit :=
  if name = [] then .error .emptyName
  else if NAME_PATH_SEPARATOR ∈ name then .error .sepInName
  else .ok ()

/-- Represents a path identifying a NamedTreeNode in a tree. -/
structure TreeNamePath where
  path_names : List PyStr
  is_absolute : Bool
deriving DecidableEq

/-- Loop in TreeNamePath.__init__ raising ValueError on the first invalid name. -/
def validate_path_names : List PyStr → Except PyErr Unit
  | [] => .ok ()
  | nm :: rest => do
    verify_name_valid nm
    validate_path_names rest

/-- TreeNamePath.__init__: validates every name, then stores the tuple. -/
def TreeNamePath.make (path_names : List PyStr) (is_absolute : Bool) :
    Except PyErr TreeNamePath := do
  validate_path_names path_names
  pure ⟨path_names, is_absolute⟩

/-- Python str.split with a one-character separator: splits at every separator
occurrence, keeping empty segments (so it never returns an empty list). -/
def splitSep : PyStr → List PyStr
  | [] => [[]]
  | c :: rest =>
    if c = NAME_PATH_SEPARATOR then [] :: splitSep rest
    else
      match splitSep rest with
      | [] => [[c]]
      | s :: ss => (c :: s) :: ss

/-- TreeNamePath.from_str: a leading separator marks an absolute path and is
removed; an empty remainder decodes to the empty path, otherwise the remainder
is split on the separator. -/
def TreeNamePath.from_str (path_str : PyStr) : Except PyErr TreeNamePath :=
  let is_absolute := path_str.head? = some NAME_PATH_SEPARATOR
  let rest := if path_str.head? = some NAME_PATH_SEPARATOR then path_str.drop 1 else path_str
  if rest = [] then TreeNamePath.make [] is_absolute
  else TreeNamePath.make (splitSep rest) is_absolute

/-- Separator-join of NAME_PATH_SEPARATOR.join(...) in TreeNamePath.__str__. -/
def joinSep : List PyStr → PyStr
  | [] => []
  | [nm] => nm
  | nm :: nm2 :: rest => nm ++ NAME_PATH_SEPARATOR :: joinSep (nm2 :: rest)

/-- TreeNamePath.__str__: joins the names with the separator, prefixing the
separator itself for absolute paths. -/
def TreeNamePath.toStr (p : TreeNamePath) : PyStr :=
  (if p.is_absolute then [NAME_PATH_SEPARATOR] else []) ++ joinSep p.path_names

/-! ## Property binders and the ancestor search (prop_binder.py, seq_node.py) -/

/-- Identity of a PropType object as used by the binder search: Python
compares binder types with ==, which for this class is object identity; the
three registry objects are identified by their index in SUPPORTED_PROP_TYPES. -/
abbrev PropTypeId := Nat

def STRING_PROP_TYPE_ID : PropTypeId := 0
def SCRIPTED_VAL_PROP_TYPE_ID : PropTypeId := 1
def SCRIPT_PROP_TYPE_ID : PropTypeId := 2

/-- PropBinder (prop_binder.py).  The binding criterion object is inlined as
its bind_tags field (a SortedSet, of which only membership is used). -/
structure PropBinder where
  prop_name : String
  prop_type : PropTypeId
  bind_tags : List String
  prop_val : String
deriving DecidableEq

/-- PropBindCriterion.criterion_satisfied: met iff every tag in bind_tags has
a matching tag in the node tag set. -/
def criterion_satisfied (bind_tags : List String) (node_tags : List String) : Bool :=
  bind_tags.all (fun tag => node_tags.contains tag)

/-- PropBinder.binds_to_node: delegates to the binding criterion, applied to
the given node tag set. -/
def PropBinder.binds_to_node (b : PropBinder) (node_tags : List String) : Bool :=
  criterion_satisfied b.bind_tags node_tags

/-- Data of one SeqNode used by the binder search. -/
structure SeqNodeData where
  tags : List String
  prop_binders : List PropBinder
deriving DecidableEq

/-- A SeqNode in context: in the source each node holds a reference to its
parent, and the search only walks upward, so a node is modelled together with
the list of its ancestors, nearest first. -/
structure SeqNodeCtx where
  self : SeqNodeData
  ancestors : List SeqNodeData
deriving DecidableEq

/-- Inner for-loop of SeqNode._find_prop_binders over one ancestor's binder
list, in stored order: a binder is yielded when its prop_name matches, it is
not a skipped script, and its criterion is satisfied by the ORIGINATING
node's tags (origin_tags is the tag set of the node the search started on). -/
def scan_prop_binders (origin_tags : List String) (prop_name : String)
    (skip_scripts : Bool) : List PropBinder → List PropBinder
  | [] => []
  | b :: rest =>
    if b.prop_name == prop_name && !(skip_scripts && b.prop_type == SCRIPT_PROP_TYPE_ID)
        && b.binds_to_node origin_tags then
      b :: scan_prop_binders origin_tags prop_name skip_scripts rest
    else
      scan_prop_binders origin_tags prop_name skip_scripts rest

/-- Outer while-loop of SeqNode._find_prop_binders: visits the node itself and
then each ancestor in turn. -/
def find_prop_binders_loop (origin_tags : List String) (prop_name : String)
    (skip_scripts : Bool) : List SeqNodeData → List PropBinder
  | [] => []
  | a :: rest =>
    scan_prop_binders origin_tags prop_name skip_scripts a.prop_binders
      ++ find_prop_binders_loop origin_tags prop_name skip_scripts rest

/-- SeqNode._find_prop_binders: the generator materialised as the list of its
yields, traversing the tree upward starting at the node itself. -/
def SeqNodeCtx._find_prop_binders (n : SeqNodeCtx) (prop_name : String)
    (skip_scripts : Bool) : List PropBinder :=
  find_prop_binders_loop n.self.tags prop_name skip_scripts (n.self :: n.ancestors)

/-- Search result as the specification describes it: over N and its ancestors,
nearest first, keep the stored-order binders whose prop_name matches, whose
criterion is satisfied by N's own tag set, and which are not of Script type
when skip_scripts is set. -/
def claimed_prop_binder_search (n : SeqNodeCtx) (prop_name : String)
    (skip_scripts : Bool) : List PropBinder :=
  ((n.self :: n.ancestors).map (fun a => a.prop_binders.filter (fun b =>
    decide (b.prop_name = prop_name ∧
      (skip_scripts = true → ¬ b.prop_type = SCRIPT_PROP_TYPE_ID) ∧
      criterion_satisfied b.bind_tags n.self.tags = true)))).flatten

/-! ## PropType conversion (prop_binder.py) -/

/-- Conversion functions appearing in the source registry. -/
inductive ConvFunc where
  | string_conversion_func
deriving DecidableEq

/-- Python values involved in the PropType registry and in conversions. -/
inductive PyVal where
  | str (s : String)
  | bool (b : Bool)
  | func (f : ConvFunc)
  | pynone
deriving DecidableEq

/-- Python str() on the modelled values. -/
def pyStrFn : PyVal → String
  | .str s => s
  | .bool b => if b then "True" else "False"
  | .func _ => "<function>"
  | .pynone => "None"

/-- Python truthiness of the modelled values. -/
def pyTruthy : PyVal → Bool
  | .str s => s != ""
  | .bool b => b
  | .func _ => true
  | .pynone => false

/-- PropType as the positional constructor
PropType(name, def_val, conversion_func, uses_scripted_val=False) stores it:
each field holds whatever value was passed in that position. -/
structure PropType where
  name : String
  def_val : PyVal
  conversion_func : PyVal
  uses_scripted_val : PyVal
deriving DecidableEq

/-- PropType('String', '', _string_conversion_func). -/
def STRING_PROP_TYPE : PropType :=
  ⟨"String", .str "", .func .string_conversion_func, .bool false⟩

/-- SCRIPTED_VAL_PROP_TYPE exactly as the source constructs it:
PropType('Scripted Value', 'script = lambda: None', True, _string_conversion_func),
which passes True positionally as conversion_func and the conversion function
as uses_scripted_val. -/
def SCRIPTED_VAL_PROP_TYPE : PropType :=
  ⟨"Scripted Value", .str "script = lambda: None", .bool true, .func .string_conversion_func⟩

/-- PropType('Script', '', _string_conversion_func). -/
def SCRIPT_PROP_TYPE : PropType :=
  ⟨"Script", .str "", .func .string_conversion_func, .bool false⟩

/-- copy.deepcopy on the modelled (immutable) values. -/
def deepcopy (v : PyVal) : PyVal := v

/-- Calling a stored conversion_func value with (prop_val, old_prop_type):
_string_conversion_func returns str(prop_val) ignoring the old type; calling
any non-callable value raises TypeError. -/
def call_conversion (f : PyVal) (prop_val : PyVal) (_old_prop_type : PropType) :
    Except PyErr PyVal :=
  match f with
  | .func .string_conversion_func => .ok (.str (pyStrFn prop_val))
  | _ => .error .typeErrorNotCallable

/-- Whether a PyErr models a Python ValueError, the only class caught by the
fallback clause of PropType.convert. -/
def PyErr.isValueError : PyErr → Bool
  | .emptyName | .sepInName | .notAllowedChildren | .nameConflict
  | .selfChild | .cycleErr | .rootReparent | .newRoot => true
  | _ => false

/-- PropType.convert.  Script execution (invoke_user_script on a scripted
value) runs arbitrary external code and is supplied as script_sem; the
conversion call is attempted and only a ValueError triggers the silent
fallback to a deep copy of the default value. -/
def PropType.convert (self : PropType) (script_sem : PyVal → Except PyErr PyVal)
    (prop_val : PyVal) (old_prop_type : PropType) : Except PyErr PyVal := do
  let prop_val ←
    if pyTruthy old_prop_type.uses_scripted_val && !pyTruthy self.uses_scripted_val then
      script_sem prop_val
    else
      pure prop_val
  match call_conversion self.conversion_func prop_val old_prop_type with
  | .ok r => pure r
  | .error e => if e.isValueError then pure (deepcopy self.def_val) else .error e

/-! ## User script invocation (util/scripts.py) -/

/-- A Python exception object as the handlers in invoke_user_script see it:
what matters is whether the object has a message attribute.  Python 3
removed BaseException.message, so ordinary exceptions have none unless user
code sets one explicitly. -/
structure PyExcObj where
  message_attr : Option String
deriving DecidableEq

/-- Outcome of calling the entry point function defined by the script. -/
inductive CallOutcome where
  | raised (e : PyExcObj)
  | returned (v : PyVal)
deriving DecidableEq

/-- Outcome of exec-ing the script source: either an exception escaped, or
execution completed leaving an environment that does or does not define the
entry point function, whose invocation would have the given outcome. -/
inductive ExecOutcome where
  | raised (e : PyExcObj)
  | completed (defines_script : Bool) (call : CallOutcome)
deriving DecidableEq

/-- Reading e.message in an except handler: the read raises AttributeError
when the exception object has no such attribute (the Python 3 normal case). -/
def exc_message (e : PyExcObj) : Except PyErr String :=
  match e.message_attr with
  | some m => .ok m
  | none => .error .attributeError

/-- invoke_user_script with the opaque exec and call behaviour of the user
script supplied as outcome.  Mirrors the source handlers: an exec failure is
reported by formatting e.message into a UserScriptError, a missing entry
point raises a UserScriptError directly, and a failing entry point call again
formats e.message. -/
def invoke_user_script (outcome : ExecOutcome) : Except PyErr PyVal :=
  match outcome with
  | .raised e => do
    let m ← exc_message e
    .error (.userScriptError ("User script failed: " ++ m))
  | .completed false _ =>
    .error (.userScriptError "User script failed to define expected function")
  | .completed true (.raised e) => do
    let m ← exc_message e
    .error (.userScriptError ("User script failed: " ++ m))
  | .completed true (.returned v) => .ok v

/-! ## SeqNode.find_prop_binder and find_prop_val (seq_node.py) -/

/-- Attribute names available on a SeqNode instance: the instance attributes
assigned in __init__ together with the methods and properties of the class
body of seq_node.py. -/
def seqNodeAttrNames : List String :=
  ["_name", "prop_binders", "tags", "children", "parent",
   "name", "name_path", "name_path_str", "follow_name_path", "can_be_renamed_to",
   "suggest_child_name", "remove_child", "add_child", "root_ancestor", "ancestors",
   "idx_in_parent", "child_at_idx", "predict_child_idx", "_find_prop_binders",
   "find_prop_binder", "_find_prop_vals", "find_prop_val", "call_prop_script"]

/-- Attribute names of a Python 3 generator object: iteration is through
__next__; there is no plain next method. -/
def generatorAttrNames : List String :=
  ["__next__", "__iter__", "send", "throw", "close"]

/-- SeqNode.find_prop_binder.  The body first evaluates
self.find_prop_binders(prop_name, skip_scripts) - an attribute lookup on the
instance - and then calls .next() on the resulting generator; each lookup
raises AttributeError when the name is absent. -/
def SeqNodeCtx.find_prop_binder (n : SeqNodeCtx) (prop_name : String)
    (skip_scripts : Bool) : Except PyErr (Option PropBinder) :=
  if seqNodeAttrNames.contains "find_prop_binders" then
    if generatorAttrNames.contains "next" then
      .ok (n._find_prop_binders prop_name skip_scripts).head?
    else .error .attributeError
  else .error .attributeError

/-- PropBinder.extract_val with apply_gen_scripts=False semantics for the
modelled binders (values are stored directly as strings here). -/
def PropBinder.extract_val (b : PropBinder) : String := b.prop_val

/-- SeqNode.find_prop_val.  The body evaluates
self.find_prop_vals(prop_name, skip_scripts, apply_gen_scripts) - an
attribute lookup - and then .next() on the result, returning the default on
StopIteration. -/
def SeqNodeCtx.find_prop_val (n : SeqNodeCtx) (prop_name : String)
    (default : Option String) (skip_scripts : Bool) : Except PyErr (Option String) :=
  if seqNodeAttrNames.contains "find_prop_vals" then
    if generatorAttrNames.contains "next" then
      .ok (((n._find_prop_binders prop_name skip_scripts).map
        PropBinder.extract_val).head?.map some |>.getD default)
    else .error .attributeError
  else .error .attributeError

/-! ## SeqNode construction and the shared default binder list (seq_node.py) -/

/-- Store of Python list objects holding property binder lists; a list object
is referenced by its index. -/
structure ListStore where
  cells : List (List PropBinder)
deriving DecidableEq

/-- Reference to the single empty list object created when the default
parameter prop_binders=[] of SeqNode.__init__ was evaluated, once, at class
definition time. -/
def DEFAULT_PROP_BINDERS_REF : Nat := 0

/-- The store after the class definition: just the default list object. -/
def initListStore : ListStore := ⟨[[]]⟩

/-- The fields of a SeqNode object relevant to binder ownership: prop_binders
is a reference to a list object. -/
structure SeqNodeObj where
  name : String
  prop_binders : Nat
deriving DecidableEq

/-- SeqNode.__init__ with respect to its prop_binders parameter: the incoming
list reference - the shared default object when the caller omits the
argument - is stored directly with self.prop_binders = prop_binders, without
any copy; the store is not changed by construction. -/
def SeqNode.init (name : String) (prop_binders : Option Nat) : SeqNodeObj :=
  { name := name, prop_binders := prop_binders.getD DEFAULT_PROP_BINDERS_REF }

/-- list.append through a reference. -/
def ListStore.append (st : ListStore) (ref : Nat) (b : PropBinder) : ListStore :=
  ⟨st.cells.set ref (st.cells.getD ref [] ++ [b])⟩

/-- Reading the list object behind a reference. -/
def ListStore.read (st : ListStore) (ref : Nat) : List PropBinder :=
  st.cells.getD ref []

/-! ## The named tree arena (named_tree_node.py, NamedTreeNode) -/

/-- Python string comparison (lexicographic by code point), the key order of
the SortedDict child collections. -/
def strLt : PyStr → PyStr → Bool
  | [], [] => false
  | [], _ :: _ => true
  | _ :: _, [] => false
  | a :: xs, b :: ys => if a < b then true else if b < a then false else strLt xs ys

/-- Association list backing a SortedDict; operations keep it strictly sorted
by key. -/
abbrev SdList (α : Type) := List (PyStr × α)

/-- Membership test (Python: k in d). -/
def sdContains {α : Type} (m : SdList α) (k : PyStr) : Bool :=
  m.any (fun e => decide (e.1 = k))

/-- Lookup (Python: d[k], used only where presence was checked). -/
def sdGet? {α : Type} : SdList α → PyStr → Option α
  | [], _ => none
  | e :: rest, k => if e.1 = k then some e.2 else sdGet? rest k

/-- Keyed insertion or replacement (Python: d[k] = v) keeping sorted order. -/
def sdInsert {α : Type} : SdList α → PyStr → α → SdList α
  | [], k, v => [(k, v)]
  | e :: rest, k, v =>
    if strLt k e.1 then (k, v) :: e :: rest
    else if k = e.1 then (k, v) :: rest
    else e :: sdInsert rest k v

/-- Keyed removal (Python: del d[k], with presence checked by the caller). -/
def sdErase {α : Type} : SdList α → PyStr → SdList α
  | [], _ => []
  | e :: rest, k => if e.1 = k then rest else e :: sdErase rest k

/-- SortedDict.index: rank of a key in the sorted key order. -/
def sdIndex {α : Type} (m : SdList α) (k : PyStr) : Nat :=
  m.findIdx (fun e => decide (e.1 = k))

/-- Sortedness invariant of a SortedDict: keys strictly ascending. -/
def SdSorted {α : Type} (m : SdList α) : Prop :=
  m.Pairwise (fun e f => strLt e.1 f.1 = true)

instance {α : Type} (m : SdList α) : Decidable (SdSorted m) :=
  inferInstanceAs (Decidable (m.Pairwise
    (fun (e f : PyStr × α) => strLt e.1 f.1 = true)))

/-- Stored fields of one NamedTreeNode.  Node references are indices into the
arena below. -/
structure NodeRec where
  name : PyStr
  parent : Option Nat
  children : SdList Nat
  can_have_children : Bool
deriving DecidableEq

instance : Inhabited NodeRec := ⟨⟨[], none, [], true⟩⟩

/-- Arena of NamedTreeNode objects: the Python object graph with references
replaced by indices. -/
structure TreeMem where
  recs : List NodeRec
deriving DecidableEq

/-- Number of nodes in the arena. -/
def TreeMem.n (st : TreeMem) : Nat := st.recs.length

/-- Record of node i (a default outside the arena; operations are only ever
applied to existing nodes). -/
def TreeMem.recD (st : TreeMem) (i : Nat) : NodeRec := st.recs.getD i default

def TreeMem.nameOf (st : TreeMem) (i : Nat) : PyStr := (st.recD i).name

def TreeMem.parentOf (st : TreeMem) (i : Nat) : Option Nat := (st.recD i).parent

def TreeMem.childrenOf (st : TreeMem) (i : Nat) : SdList Nat := (st.recD i).children

def TreeMem.setRec (st : TreeMem) (i : Nat) (r : NodeRec) : TreeMem := ⟨st.recs.set i r⟩

/-- In-place mutation of a node's child collection. -/
def TreeMem.updChildren (st : TreeMem) (i : Nat) (f : SdList Nat → SdList Nat) : TreeMem :=
  st.setRec i { st.recD i with children := f (st.recD i).children }

/-- In-place mutation of a node's name field. -/
def TreeMem.updName (st : TreeMem) (i : Nat) (nm : PyStr) : TreeMem :=
  st.setRec i { st.recD i with name := nm }

/-- In-place mutation of a node's parent reference. -/
def TreeMem.updParent (st : TreeMem) (i : Nat) (p : Option Nat) : TreeMem :=
  st.setRec i { st.recD i with parent := p }

/-- Walk of the ancestors generator: the nodes reached by following parent
references from the given starting reference.  Fuel bounds the walk; for a
well-formed arena fuel st.n + 1 visits every ancestor (proved below), while
on a cyclic arena the source generator itself would not terminate. -/
def ancWalk (st : TreeMem) : Nat → Option Nat → List Nat
  | _, none => []
  | 0, some _ => []
  | fuel + 1, some i => i :: ancWalk st fuel (st.parentOf i)

/-- NamedTreeNode.ancestors of node i, bottom to top, excluding i itself. -/
def TreeMem.ancestorsOf (st : TreeMem) (i : Nat) : List Nat :=
  ancWalk st (st.n + 1) (st.parentOf i)

/-- k-fold parent step (auxiliary, for reasoning about walks). -/
def iterParent (st : TreeMem) : Nat → Nat → Option Nat
  | 0, i => some i
  | k + 1, i =>
    match st.parentOf i with
    | none => none
    | some p => iterParent st k p

/-- Node a is a strict ancestor of node i: a positive number of parent steps
from i reaches a. -/
def IsAnc (st : TreeMem) (i a : Nat) : Prop :=
  ∃ k, iterParent st (k + 1) i = some a

/-- The parent walk from the given reference reaches a root within the fuel. -/
def walkEnds (st : TreeMem) : Nat → Option Nat → Bool
  | _, none => true
  | 0, some _ => false
  | fuel + 1, some i => walkEnds st fuel (st.parentOf i)

/-- Well-formedness of the arena, matching the documented invariants of
NamedTreeNode: sorted child collections, in-range references, bidirectional
parent/child consistency, valid stored names, and terminating (hence acyclic)
parent chains. -/
structure WF (st : TreeMem) : Prop where
  sorted : ∀ i < st.n, SdSorted (st.childrenOf i)
  parent_lt : ∀ i < st.n, ∀ p, st.parentOf i = some p → p < st.n
  child_lt : ∀ i < st.n, ∀ e ∈ st.childrenOf i, e.2 < st.n
  mirror_down : ∀ i < st.n, ∀ e ∈ st.childrenOf i,
    st.nameOf e.2 = e.1 ∧ st.parentOf e.2 = some i
  mirror_up : ∀ i < st.n, ∀ p, st.parentOf i = some p → (st.nameOf i, i) ∈ st.childrenOf p
  names_ok : ∀ i < st.n, verify_name_valid (st.nameOf i) = .ok ()
  ends : ∀ i < st.n, walkEnds st (st.n + 1) (some i) = true
  acyclic : ∀ i < st.n, i ∉ st.ancestorsOf i

/-- NamedTreeNode.verify_child_name_available: name validity, permission to
have children, and absence of a child with the name, in source order. -/
def verify_child_name_available (st : TreeMem) (self : Nat) (name : PyStr) :
    Except PyErr Unit := do
  verify_name_valid name
  if (st.recD self).can_have_children = false then .error .notAllowedChildren
  else if sdContains (st.childrenOf self) name then .error .nameConflict
  else .ok ()

/-- NamedTreeNode.verify_can_add_as_child: accept a node that is already this
exact child; otherwise check name availability, direct self-parenting, and
transitive cycles, in source order. -/
def verify_can_add_as_child (st : TreeMem) (self node : Nat) : Except PyErr Unit :=
  if sdGet? (st.childrenOf self) (st.nameOf node) = some node then .ok ()
  else do
    verify_child_name_available st self (st.nameOf node)
    if self = node then .error .selfChild
    else if node ∈ st.ancestorsOf self then .error .cycleErr
    else .ok ()

/-- Result of a mutating operation.  A raised Python exception does not roll
back already-performed mutations, so the error case carries the state. -/
inductive OpResult where
  | ok (st : TreeMem)
  | error (e : PyErr) (st : TreeMem)
deriving DecidableEq

/-- The state an operation left behind, error or not. -/
def OpResult.state : OpResult → TreeMem
  | .ok st => st
  | .error _ st => st

/-- Tail of the parent property setter after the removal from the old parent:
insert into the new parent's child collection, then update the back
reference. -/
def finishSetParent (st : TreeMem) (self : Nat) (parent : Option Nat) : OpResult :=
  let st2 :=
    match parent with
    | some p => st.updChildren p (fun m => sdInsert m (st.nameOf self) self)
    | none => st
  .ok (st2.updParent self parent)

/-- Parent property setter of NamedTreeNode: validate against the new parent,
remove this node from the old parent's child collection (del raises KeyError
on a missing key; impossible from well-formed states, proved below), insert
into the new parent's collection, update the parent reference.  All
validation precedes the first mutation. -/
def NamedTreeNode.set_parent (st : TreeMem) (self : Nat) (parent : Option Nat) :
    OpResult :=
  match (match parent with
         | some p => verify_can_add_as_child st p self
         | none => .ok ()) with
  | .error e => .error e st
  | .ok _ =>
    match st.parentOf self with
    | some oldp =>
      if sdContains (st.childrenOf oldp) (st.nameOf self) then
        finishSetParent (st.updChildren oldp (fun m => sdErase m (st.nameOf self)))
          self parent
      else .error .keyError st
    | none => finishSetParent st self parent

/-- NamedTreeNode.remove_child: set the found child's parent to None; no-op
when no child with that name exists. -/
def NamedTreeNode.remove_child (st : TreeMem) (self : Nat) (child_name : PyStr) :
    OpResult :=
  match sdGet? (st.childrenOf self) child_name with
  | some c => NamedTreeNode.set_parent st c none
  | none => .ok st

/-- NamedTreeNode.add_child: equivalent to setting child.parent = self. -/
def NamedTreeNode.add_child (st : TreeMem) (self child : Nat) : OpResult :=
  NamedTreeNode.set_parent st child (some self)

/-- Name property setter of NamedTreeNode: no-op on the unchanged name;
validate the new name and its availability under the parent; a root is
renamed in place, a parented node is detached under the old name, renamed,
and reattached. -/
def NamedTreeNode.set_name (st : TreeMem) (self : Nat) (name : PyStr) : OpResult :=
  if name = st.nameOf self then .ok st
  else
    match verify_name_valid name with
    | .error e => .error e st
    | .ok _ =>
      match (match st.parentOf self with
             | some p => verify_child_name_available st p name
             | none => .ok ()) with
      | .error e => .error e st
      | .ok _ =>
        match st.parentOf self with
        | none => .ok (st.updName self name)
        | some p =>
          match NamedTreeNode.remove_child st p (st.nameOf self) with
          | .error e st1 => .error e st1
          | .ok st1 => NamedTreeNode.add_child (st1.updName self name) p self

/-- ProjectTreeController.reparent_node: no-op when the parent reference is
unchanged; cannot reparent a root; cannot create a second root; validate
against the new parent; then perform the parent property assignment (which
re-runs the same validation). -/
def reparent_node (st : TreeMem) (node : Nat) (new_parent : Option Nat) : OpResult :=
  if st.parentOf node = new_parent then .ok st
  else if st.parentOf node = none then .error .rootReparent st
  else
    match new_parent with
    | none => .error .newRoot st
    | some p =>
      match verify_can_add_as_child st p node with
      | .error e => .error e st
      | .ok _ => NamedTreeNode.set_parent st node (some p)

/-- NamedTreeNode.child_idx_from_name: index of an existing child name in the
sorted order, or, for an absent name, the index it would occupy, computed on
a copy of the child collection with the name inserted mapping to None. -/
def child_idx_from_name (st : TreeMem) (self : Nat) (child_name : PyStr) : Nat :=
  if sdContains (st.childrenOf self) child_name then
    sdIndex (st.childrenOf self) child_name
  else
    sdIndex
      (sdInsert ((st.childrenOf self).map (fun e => (e.1, some e.2))) child_name none)
      child_name

/-- SeqNode.predict_child_idx for a prospective child that is not currently a
child of this node (for a current child the source returns its actual index):
raise on a conflicting different child, otherwise compute the index on a copy
of the child collection with the node inserted. -/
def SeqNode.predict_child_idx (children : SdList Nat) (node_name : PyStr) (node : Nat) :
    Except PyErr Nat :=
  if sdContains children node_name then .error .nameConflict
  else .ok (sdIndex (sdInsert children node_name node) node_name)

/-- One structural operation of the kinds the invariant claim ranges over. -/
inductive TreeOp where
  | add (parent child : Nat)
  | remove (parent : Nat) (child_name : PyStr)
  | rename (node : Nat) (new_name : PyStr)
  | reparent (node : Nat) (new_parent : Option Nat)
deriving DecidableEq

/-- Whether an operation refers only to nodes existing in the arena; source
operations are invoked on actual node objects, so only such operations
correspond to source calls. -/
def TreeOp.valid (st : TreeMem) : TreeOp → Bool
  | .add p c => decide (p < st.n) && decide (c < st.n)
  | .remove p _ => decide (p < st.n)
  | .rename i _ => decide (i < st.n)
  | .reparent i p =>
    decide (i < st.n) && (match p with | none => true | some q => decide (q < st.n))

/-- Dispatch of one operation. -/
def TreeOp.apply (st : TreeMem) : TreeOp → OpResult
  | .add p c => NamedTreeNode.add_child st p c
  | .remove p nm => NamedTreeNode.remove_child st p nm
  | .rename i nm => NamedTreeNode.set_name st i nm
  | .reparent i p => NamedTreeNode.set_parent st i p

/-- Run a sequence of operations; an operation that raises leaves behind
whatever state the exception left (failing operations are part of the claimed
sequences), and operations not naming actual nodes are skipped. -/
def runOps : TreeMem → List TreeOp → TreeMem
  | st, [] => st
  | st, op :: rest =>
    if op.valid st then runOps (op.apply st).state rest
    else runOps st rest

/-- Claimed sibling invariant: two distinct children of one parent have
different stored names. -/
def SiblingNamesUnique (st : TreeMem) : Prop :=
  ∀ q < st.n, ∀ e ∈ st.childrenOf q, ∀ f ∈ st.childrenOf q,
    e.2 ≠ f.2 → st.nameOf e.2 ≠ st.nameOf f.2

/-! # Theorems

First the supporting lemma library (key order, SortedDict operations, walks),
then the claim theorems. -/

/-! ### Key order -/

theorem strLt_irrefl (s : PyStr) : strLt s s = false := by
  induction s with
  | nil => rfl
  | cons a xs ih => simp [strLt, ih, lt_irrefl]

theorem strLt_conn {a b : PyStr} (h1 : strLt a b = false) (h2 : strLt b a = false) :
    a = b := by
  induction a generalizing b with
  | nil =>
    cases b with
    | nil => rfl
    | cons y ys => simp [strLt] at h1
  | cons x xs ih =>
    cases b with
    | nil => simp [strLt] at h2
    | cons y ys =>
      simp only [strLt] at h1 h2
      by_cases hxy : x < y
      · simp [hxy] at h1
      · by_cases hyx : y < x
        · simp [hyx, hxy] at h2
        · have hx : x = y := le_antisymm (not_lt.mp hyx) (not_lt.mp hxy)
          simp only [hxy, hyx, if_false] at h1 h2
          rw [hx, ih h1 h2]

theorem strLt_trans {a b c : PyStr} (h1 : strLt a b = true) (h2 : strLt b c = true) :
    strLt a c = true := by
  induction a generalizing b c with
  | nil =>
    cases b with
    | nil => simp [strLt] at h1
    | cons y ys =>
      cases c with
      | nil => simp [strLt] at h2
      | cons z zs => rfl
  | cons x xs ih =>
    cases b with
    | nil => simp [strLt] at h1
    | cons y ys =>
      cases c with
      | nil => simp [strLt] at h2
      | cons z zs =>
        simp only [strLt] at h1 h2 ⊢
        by_cases hxy : x < y
        · by_cases hyz : y < z
          · simp [lt_trans hxy hyz]
          · by_cases hzy : z < y
            · simp [hyz, hzy] at h2
            · have hyzeq : y = z := le_antisymm (not_lt.mp hzy) (not_lt.mp hyz)
              rw [← hyzeq]
              simp [hxy]
        · by_cases hyx : y < x
          · simp [hxy, hyx] at h1
          · have hx : x = y := le_antisymm (not_lt.mp hyx) (not_lt.mp hxy)
            simp only [hxy, hyx, if_false] at h1
            by_cases hyz : y < z
            · simp [hx ▸ hyz]
            · by_cases hzy : z < y
              · simp [hyz, hzy] at h2
              · have hy : y = z := le_antisymm (not_lt.mp hzy) (not_lt.mp hyz)
                simp only [hyz, hzy, if_false] at h2
                rw [hx, hy]
                simp [lt_irrefl, ih h1 h2]

theorem strLt_asymm {a b : PyStr} (h : strLt a b = true) : strLt b a = false := by
  cases hba : strLt b a with
  | false => rfl
  | true => exact absurd (strLt_trans h hba) (by simp [strLt_irrefl])

theorem strLt_ne {a b : PyStr} (h : strLt a b = true) : a ≠ b := by
  intro he
  subst he
  simp [strLt_irrefl] at h

theorem bool_eq_false {b : Bool} (h : ¬ b = true) : b = false := by
  cases b
  · rfl
  · exact absurd rfl h

theorem strLt_of_not {a b : PyStr} (h1 : strLt a b = false) (h2 : a ≠ b) :
    strLt b a = true := by
  cases hba : strLt b a with
  | true => rfl
  | false => exact absurd (strLt_conn h1 hba) h2

/-! ### SortedDict lemmas -/

theorem sdSorted_cons {α : Type} {e : PyStr × α} {rest : SdList α} :
    SdSorted (e :: rest) ↔ (∀ f ∈ rest, strLt e.1 f.1 = true) ∧ SdSorted rest :=
  List.pairwise_cons

theorem sdContains_iff {α : Type} {m : SdList α} {k : PyStr} :
    sdContains m k = true ↔ ∃ v, (k, v) ∈ m := by
  simp only [sdContains, List.any_eq_true, decide_eq_true_eq]
  constructor
  · rintro ⟨⟨k1, v⟩, hm, hk⟩
    exact ⟨v, hk ▸ hm⟩
  · rintro ⟨v, hm⟩
    exact ⟨(k, v), hm, rfl⟩

theorem sdContains_false {α : Type} {m : SdList α} {k : PyStr}
    (h : sdContains m k = false) : ∀ x ∈ m, x.1 ≠ k := by
  intro x hx he
  have ht : sdContains m k = true := sdContains_iff.mpr ⟨x.2, by
    have : x = (k, x.2) := by
      cases x
      simp only at he
      rw [he]
    exact this ▸ hx⟩
  rw [ht] at h
  cases h

theorem mem_sdInsert_of {α : Type} {m : SdList α} {k : PyStr} {v : α} {x : PyStr × α}
    (h : x ∈ sdInsert m k v) : x = (k, v) ∨ x ∈ m := by
  induction m with
  | nil =>
    simp only [sdInsert, List.mem_singleton] at h
    exact .inl h
  | cons e rest ih =>
    simp only [sdInsert] at h
    by_cases h1 : strLt k e.1
    · simp only [h1, if_true] at h
      rcases List.mem_cons.mp h with h | h
      · exact .inl h
      · exact .inr h
    · rw [bool_eq_false h1, if_neg (by simp)] at h
      by_cases h2 : k = e.1
      · rw [if_pos h2] at h
        rcases List.mem_cons.mp h with h | h
        · exact .inl h
        · exact .inr (List.mem_cons_of_mem _ h)
      · rw [if_neg h2] at h
        rcases List.mem_cons.mp h with h | h
        · exact .inr (h ▸ List.mem_cons_self _ _)
        · rcases ih h with h | h
          · exact .inl h
          · exact .inr (List.mem_cons_of_mem _ h)

theorem mem_sdInsert {α : Type} {m : SdList α} {k : PyStr} {v : α} {x : PyStr × α}
    (hs : SdSorted m) :
    x ∈ sdInsert m k v ↔ x = (k, v) ∨ (x ∈ m ∧ x.1 ≠ k) := by
  induction m with
  | nil => simp [sdInsert]
  | cons e rest ih =>
    obtain ⟨hhead, hrest⟩ := sdSorted_cons.mp hs
    simp only [sdInsert]
    by_cases h1 : strLt k e.1
    · simp only [h1, if_true]
      constructor
      · intro h
        rcases List.mem_cons.mp h with h | h
        · exact .inl h
        · refine .inr ⟨h, fun hk => ?_⟩
          rcases List.mem_cons.mp h with h3 | h3
          · rw [h3] at hk
            rw [hk, strLt_irrefl] at h1
            cases h1
          · have := strLt_trans h1 (hhead x h3)
            rw [hk, strLt_irrefl] at this
            cases this
      · rintro (h | ⟨h, hk⟩)
        · exact h ▸ List.mem_cons_self _ _
        · exact List.mem_cons_of_mem _ h
    · rw [bool_eq_false h1, if_neg (by simp)]
      by_cases h2 : k = e.1
      · rw [if_pos h2]
        constructor
        · intro h
          rcases List.mem_cons.mp h with h | h
          · exact .inl h
          · refine .inr ⟨List.mem_cons_of_mem _ h, fun hk => ?_⟩
            have := hhead x h
            rw [hk, ← h2, strLt_irrefl] at this
            cases this
        · rintro (h | ⟨h, hk⟩)
          · exact h ▸ List.mem_cons_self _ _
          · rcases List.mem_cons.mp h with h3 | h3
            · rw [h3, h2] at hk
              exact absurd rfl hk
            · exact List.mem_cons_of_mem _ h3
      · rw [if_neg h2]
        constructor
        · intro h
          rcases List.mem_cons.mp h with h3 | h3
          · exact .inr ⟨h3 ▸ List.mem_cons_self _ _, h3 ▸ fun hk => h2 hk.symm⟩
          · rcases (ih hrest).mp h3 with h4 | ⟨h4, hk⟩
            · exact .inl h4
            · exact .inr ⟨List.mem_cons_of_mem _ h4, hk⟩
        · rintro (h | ⟨h, hk⟩)
          · exact List.mem_cons_of_mem _ ((ih hrest).mpr (.inl h))
          · rcases List.mem_cons.mp h with h3 | h3
            · exact h3 ▸ List.mem_cons_self _ _
            · exact List.mem_cons_of_mem _ ((ih hrest).mpr (.inr ⟨h3, hk⟩))

theorem mem_sdErase {α : Type} {m : SdList α} {k : PyStr} {x : PyStr × α}
    (hs : SdSorted m) :
    x ∈ sdErase m k ↔ x ∈ m ∧ x.1 ≠ k := by
  induction m with
  | nil => simp [sdErase]
  | cons e rest ih =>
    obtain ⟨hhead, hrest⟩ := sdSorted_cons.mp hs
    simp only [sdErase]
    by_cases h1 : e.1 = k
    · rw [if_pos h1]
      constructor
      · intro h
        refine ⟨List.mem_cons_of_mem _ h, fun hk => ?_⟩
        have := hhead x h
        rw [hk, h1, strLt_irrefl] at this
        cases this
      · rintro ⟨h, hk⟩
        rcases List.mem_cons.mp h with h3 | h3
        · rw [h3] at hk
          exact absurd h1 hk
        · exact h3
    · rw [if_neg h1]
      constructor
      · intro h
        rcases List.mem_cons.mp h with h3 | h3
        · exact ⟨h3 ▸ List.mem_cons_self _ _, h3 ▸ fun hk => h1 hk⟩
        · obtain ⟨hm, hk⟩ := (ih hrest).mp h3
          exact ⟨List.mem_cons_of_mem _ hm, hk⟩
      · rintro ⟨h, hk⟩
        rcases List.mem_cons.mp h with h3 | h3
        · exact h3 ▸ List.mem_cons_self _ _
        · exact List.mem_cons_of_mem _ ((ih hrest).mpr ⟨h3, hk⟩)

theorem sdInsert_sorted {α : Type} {m : SdList α} {k : PyStr} {v : α}
    (hs : SdSorted m) : SdSorted (sdInsert m k v) := by
  induction m with
  | nil =>
    simp only [sdInsert]
    exact List.pairwise_singleton _ _
  | cons e rest ih =>
    obtain ⟨hhead, hrest⟩ := sdSorted_cons.mp hs
    simp only [sdInsert]
    by_cases h1 : strLt k e.1
    · simp only [h1, if_true]
      refine sdSorted_cons.mpr ⟨?_, hs⟩
      intro f hf
      rcases List.mem_cons.mp hf with h | h
      · rw [h]
        exact h1
      · exact strLt_trans h1 (hhead f h)
    · rw [bool_eq_false h1, if_neg (by simp)]
      by_cases h2 : k = e.1
      · rw [if_pos h2]
        refine sdSorted_cons.mpr ⟨?_, hrest⟩
        intro f hf
        rw [h2]
        exact hhead f hf
      · rw [if_neg h2]
        refine sdSorted_cons.mpr ⟨?_, ih hrest⟩
        intro f hf
        rcases mem_sdInsert_of hf with h | h
        · rw [h]
          exact strLt_of_not (bool_eq_false h1) h2
        · exact hhead f h

theorem sdErase_sorted {α : Type} {m : SdList α} {k : PyStr}
    (hs : SdSorted m) : SdSorted (sdErase m k) := by
  induction m with
  | nil => simpa [sdErase] using hs
  | cons e rest ih =>
    obtain ⟨hhead, hrest⟩ := sdSorted_cons.mp hs
    simp only [sdErase]
    by_cases h1 : e.1 = k
    · rw [if_pos h1]
      exact hrest
    · rw [if_neg h1]
      refine sdSorted_cons.mpr ⟨?_, ih hrest⟩
      intro f hf
      exact hhead f ((mem_sdErase hrest).mp hf).1

theorem sdGet?_iff {α : Type} {m : SdList α} {k : PyStr} {v : α}
    (hs : SdSorted m) : sdGet? m k = some v ↔ (k, v) ∈ m := by
  induction m with
  | nil => simp [sdGet?]
  | cons e rest ih =>
    obtain ⟨hhead, hrest⟩ := sdSorted_cons.mp hs
    simp only [sdGet?]
    by_cases h1 : e.1 = k
    · rw [if_pos h1]
      constructor
      · intro h
        cases h
        have : e = (k, e.2) := by
          cases e
          simp only at h1
          rw [h1]
        exact this ▸ List.mem_cons_self _ _
      · intro h
        rcases List.mem_cons.mp h with h3 | h3
        · rw [← h3]
        · exfalso
          have := hhead (k, v) h3
          rw [h1, strLt_irrefl] at this
          cases this
    · rw [if_neg h1]
      rw [ih hrest]
      constructor
      · intro h
        exact List.mem_cons_of_mem _ h
      · intro h
        rcases List.mem_cons.mp h with h3 | h3
        · exfalso
          rw [← h3] at h1
          exact h1 rfl
        · exact h3

theorem sdFrontInsert {α : Type} {m : SdList α} {k : PyStr} {v : α}
    (h : ∀ f ∈ m, strLt k f.1 = true) : sdInsert m k v = (k, v) :: m := by
  cases m with
  | nil => rfl
  | cons e rest =>
    simp only [sdInsert]
    rw [if_pos (h e (List.mem_cons_self _ _))]

theorem sdInsert_sdErase_self {α : Type} {m : SdList α} {k : PyStr} {v : α}
    (hs : SdSorted m) (hm : (k, v) ∈ m) : sdInsert (sdErase m k) k v = m := by
  induction m with
  | nil => cases hm
  | cons e rest ih =>
    obtain ⟨hhead, hrest⟩ := sdSorted_cons.mp hs
    simp only [sdErase]
    by_cases h1 : e.1 = k
    · rw [if_pos h1]
      have he : e = (k, v) := by
        rcases List.mem_cons.mp hm with h3 | h3
        · rw [h3]
        · exfalso
          have := hhead (k, v) h3
          rw [h1, strLt_irrefl] at this
          cases this
      rw [sdFrontInsert (fun f hf => by rw [← h1]; exact hhead f hf), he]
    · rw [if_neg h1]
      have hm2 : (k, v) ∈ rest := by
        rcases List.mem_cons.mp hm with h3 | h3
        · exfalso
          rw [← h3] at h1
          exact h1 rfl
        · exact h3
      simp only [sdInsert]
      have hek : strLt k e.1 = false := by
        have := hhead (k, v) hm2
        exact strLt_asymm this
      rw [hek, if_neg (by simp), if_neg (fun h => h1 h.symm), ih hrest hm2]

theorem sdContains_cons_tail {α : Type} {e : PyStr × α} {rest : SdList α} {k : PyStr}
    (h : sdContains (e :: rest) k = false) : sdContains rest k = false := by
  cases ht : sdContains rest k with
  | false => rfl
  | true =>
    obtain ⟨v, hv⟩ := sdContains_iff.mp ht
    rw [sdContains_iff.mpr ⟨v, List.mem_cons_of_mem _ hv⟩] at h
    cases h

theorem sdIndex_insert_rank {α : Type} {m : SdList α} {k : PyStr} {v : α}
    (hs : SdSorted m) (hnc : sdContains m k = false) :
    sdIndex (sdInsert m k v) k = m.countP (fun e => strLt e.1 k) := by
  induction m with
  | nil => simp [sdInsert, sdIndex, List.findIdx_cons]
  | cons e rest ih =>
    have hne := sdContains_false hnc
    obtain ⟨hhead, hrest⟩ := sdSorted_cons.mp hs
    have hnc2 : sdContains rest k = false := sdContains_cons_tail hnc
    simp only [sdInsert]
    by_cases h1 : strLt k e.1
    · simp only [h1, if_true, sdIndex, List.findIdx_cons, decide_True, cond_true]
      symm
      rw [List.countP_eq_zero]
      intro x hx h
      rcases List.mem_cons.mp hx with h3 | h3
      · rw [h3] at h
        rw [strLt_asymm h] at h1
        simp at h1
      · have := strLt_trans (strLt_trans h1 (hhead x h3)) h
        rw [strLt_irrefl] at this
        simp at this
    · have h2 : k ≠ e.1 := fun he => hne e (List.mem_cons_self _ _) he.symm
      rw [bool_eq_false h1, if_neg (by simp), if_neg h2]
      have he1 : decide (e.1 = k) = false := by
        simp only [decide_eq_false_iff_not]
        exact hne e (List.mem_cons_self _ _)
      simp only [sdIndex, List.findIdx_cons, he1, cond_false, List.countP_cons,
        strLt_of_not (bool_eq_false h1) h2, if_true]
      rw [← sdIndex, ih hrest hnc2]

theorem sdContains_insert_self {α : Type} {m : SdList α} {k : PyStr} {v : α}
    (hs : SdSorted m) : sdContains (sdInsert m k v) k = true :=
  sdContains_iff.mpr ⟨v, (mem_sdInsert hs).mpr (.inl rfl)⟩

theorem sdIndex_rank_of_mem {α : Type} {m : SdList α} {k : PyStr}
    (hs : SdSorted m) (hc : sdContains m k = true) :
    sdIndex m k = m.countP (fun e => strLt e.1 k) := by
  induction m with
  | nil => cases hc
  | cons e rest ih =>
    obtain ⟨hhead, hrest⟩ := sdSorted_cons.mp hs
    by_cases h1 : e.1 = k
    · have hd : decide (e.1 = k) = true := by simp [h1]
      simp only [sdIndex, List.findIdx_cons, hd, cond_true, List.countP_cons]
      symm
      have hz : List.countP (fun e => strLt e.1 k) rest = 0 := by
        rw [List.countP_eq_zero]
        intro x hx h
        have := strLt_trans (h1 ▸ hhead x hx) h
        rw [strLt_irrefl] at this
        simp at this
      rw [hz]
      have : strLt e.1 k = false := by
        rw [h1]
        exact strLt_irrefl k
      simp [this]
    · have hc2 : sdContains rest k = true := by
        obtain ⟨v, hv⟩ := sdContains_iff.mp hc
        rcases List.mem_cons.mp hv with h3 | h3
        · exfalso
          rw [← h3] at h1
          exact h1 rfl
        · exact sdContains_iff.mpr ⟨v, h3⟩
      have hlt : strLt e.1 k = true := by
        obtain ⟨v, hv⟩ := sdContains_iff.mp hc2
        exact hhead (k, v) hv
      have hd : decide (e.1 = k) = false := by simp [h1]
      simp only [sdIndex, List.findIdx_cons, hd, cond_false, List.countP_cons, hlt, if_true]
      rw [← sdIndex, ih hrest hc2]

/-! ### Path codec lemmas -/

theorem validate_ok_iff {l : List PyStr} :
    validate_path_names l = .ok () ↔ ∀ nm ∈ l, verify_name_valid nm = .ok () := by
  induction l with
  | nil => simp [validate_path_names]
  | cons nm rest ih =>
    cases hv : verify_name_valid nm with
    | error e => simp [validate_path_names, hv, Bind.bind, Except.bind]
    | ok u =>
      cases u
      simp [validate_path_names, hv, Bind.bind, Except.bind, ih]

theorem make_eq_ok {l : List PyStr} {b : Bool}
    (h : ∀ nm ∈ l, verify_name_valid nm = .ok ()) :
    TreeNamePath.make l b = .ok ⟨l, b⟩ := by
  have hstep := validate_ok_iff.mpr h
  simp [TreeNamePath.make, hstep, Bind.bind, Except.bind, pure, Except.pure]

theorem make_ok_iff {l : List PyStr} {b : Bool} :
    (∃ p, TreeNamePath.make l b = .ok p) ↔ ∀ nm ∈ l, verify_name_valid nm = .ok () := by
  constructor
  · rintro ⟨p, hp⟩
    cases hv : validate_path_names l with
    | error e =>
      rw [TreeNamePath.make] at hp
      simp [hv, Bind.bind, Except.bind] at hp
    | ok u =>
      cases u
      exact validate_ok_iff.mp hv
  · intro h
    exact ⟨⟨l, b⟩, make_eq_ok h⟩

theorem splitSep_ne_nil (s : PyStr) : splitSep s ≠ [] := by
  induction s with
  | nil => simp [splitSep]
  | cons c rest ih =>
    simp only [splitSep]
    by_cases h : c = NAME_PATH_SEPARATOR
    · simp [h]
    · rw [if_neg h]
      cases hs : splitSep rest with
      | nil => simp
      | cons a t => simp

theorem splitSep_no_sep {s : PyStr} (h : NAME_PATH_SEPARATOR ∉ s) : splitSep s = [s] := by
  induction s with
  | nil => rfl
  | cons c rest ih =>
    have hc : ¬ c = NAME_PATH_SEPARATOR := fun he => h (List.mem_cons.mpr (.inl he.symm))
    have hr : NAME_PATH_SEPARATOR ∉ rest := fun hm => h (List.mem_cons_of_mem _ hm)
    simp only [splitSep, if_neg hc, ih hr]

theorem splitSep_append {s r : PyStr} (h : NAME_PATH_SEPARATOR ∉ s) :
    splitSep (s ++ NAME_PATH_SEPARATOR :: r) = s :: splitSep r := by
  induction s with
  | nil => simp [splitSep]
  | cons c rest ih =>
    have hc : ¬ c = NAME_PATH_SEPARATOR := fun he => h (List.mem_cons.mpr (.inl he.symm))
    have hr : NAME_PATH_SEPARATOR ∉ rest := fun hm => h (List.mem_cons_of_mem _ hm)
    simp only [List.cons_append, splitSep, if_neg hc, List.append_eq, ih hr]

theorem splitSep_mem_no_sep {s : PyStr} : ∀ nm ∈ splitSep s, NAME_PATH_SEPARATOR ∉ nm := by
  induction s with
  | nil =>
    intro nm h
    simp only [splitSep, List.mem_singleton] at h
    subst h
    simp
  | cons c rest ih =>
    intro nm hm
    simp only [splitSep] at hm
    by_cases h : c = NAME_PATH_SEPARATOR
    · rw [if_pos h] at hm
      rcases List.mem_cons.mp hm with h3 | h3
      · subst h3
        simp
      · exact ih nm h3
    · rw [if_neg h] at hm
      cases hs : splitSep rest with
      | nil => exact absurd hs (splitSep_ne_nil rest)
      | cons a t =>
        rw [hs] at hm
        rcases List.mem_cons.mp hm with h3 | h3
        · subst h3
          intro hin
          rcases List.mem_cons.mp hin with h4 | h4
          · exact h h4.symm
          · exact ih a (hs ▸ List.mem_cons_self _ _) h4
        · exact ih nm (hs ▸ List.mem_cons_of_mem _ h3)

theorem joinSep_ne_nil {nm : PyStr} {rest : List PyStr} (h : nm ≠ []) :
    joinSep (nm :: rest) ≠ [] := by
  cases rest with
  | nil => simpa [joinSep] using h
  | cons nm2 t => simp [joinSep]

theorem joinSep_head {nm : PyStr} {rest : List PyStr} (h : nm ≠ []) :
    (joinSep (nm :: rest)).head? = nm.head? := by
  cases rest with
  | nil => rfl
  | cons nm2 t =>
    cases nm with
    | nil => exact absurd rfl h
    | cons c cs => rfl

theorem joinSep_split {l : List PyStr} (hne : l ≠ [])
    (h : ∀ nm ∈ l, nm ≠ [] ∧ NAME_PATH_SEPARATOR ∉ nm) :
    splitSep (joinSep l) = l := by
  induction l with
  | nil => exact absurd rfl hne
  | cons nm rest ih =>
    cases rest with
    | nil =>
      simp only [joinSep]
      exact splitSep_no_sep (h nm (List.mem_cons_self _ _)).2
    | cons nm2 t =>
      simp only [joinSep]
      rw [splitSep_append (h nm (List.mem_cons_self _ _)).2,
        ih (by simp) (fun x hx => h x (List.mem_cons_of_mem _ hx))]

theorem from_str_eq (s : PyStr) :
    TreeNamePath.from_str s =
      if s.head? = some NAME_PATH_SEPARATOR then
        (if s.drop 1 = [] then TreeNamePath.make [] true
         else TreeNamePath.make (splitSep (s.drop 1)) true)
      else
        (if s = [] then TreeNamePath.make [] false
         else TreeNamePath.make (splitSep s) false) := by
  unfold TreeNamePath.from_str
  by_cases h : s.head? = some NAME_PATH_SEPARATOR
  · simp [h]
  · simp [h]

/-- C3: for every valid TreeNamePath p (each name non-empty and free of the
separator), decoding the string encoding of p yields a path equal to p; in
particular the absolute path with zero names encodes to exactly the separator
string, the relative path with zero names encodes to the empty string, and
both decode back to themselves. -/
theorem path_round_trip (p : TreeNamePath)
    (hvalid : ∀ nm ∈ p.path_names, verify_name_valid nm = .ok ()) :
    TreeNamePath.from_str p.toStr = .ok p ∧
    TreeNamePath.toStr ⟨[], true⟩ = [NAME_PATH_SEPARATOR] ∧
    TreeNamePath.toStr ⟨[], false⟩ = [] ∧
    TreeNamePath.from_str [NAME_PATH_SEPARATOR] = .ok ⟨[], true⟩ ∧
    TreeNamePath.from_str [] = .ok ⟨[], false⟩ := by
  refine ⟨?_, by decide, by decide, by decide, by decide⟩
  obtain ⟨names, abs⟩ := p
  have hv : ∀ nm ∈ names, nm ≠ [] ∧ NAME_PATH_SEPARATOR ∉ nm := by
    intro nm hm
    have hok := hvalid nm hm
    by_cases h1 : nm = []
    · simp [verify_name_valid, h1] at hok
    · by_cases h2 : NAME_PATH_SEPARATOR ∈ nm
      · simp [verify_name_valid, h1, h2] at hok
      · exact ⟨h1, h2⟩
  cases names with
  | nil => cases abs <;> decide
  | cons nm rest =>
    have hnm := hv nm (List.mem_cons_self _ _)
    have hjne : joinSep (nm :: rest) ≠ [] := joinSep_ne_nil hnm.1
    have hjhead : ¬ (joinSep (nm :: rest)).head? = some NAME_PATH_SEPARATOR := by
      rw [joinSep_head hnm.1]
      cases hcn : nm with
      | nil => exact absurd hcn hnm.1
      | cons c cs =>
        intro he
        rw [List.head?_cons] at he
        have hce : c = NAME_PATH_SEPARATOR := Option.some.inj he
        exact hnm.2 (by rw [hcn]; exact List.mem_cons.mpr (.inl hce.symm))
    have hsplit : splitSep (joinSep (nm :: rest)) = nm :: rest :=
      joinSep_split (by simp) hv
    cases abs with
    | true =>
      have htos : TreeNamePath.toStr ⟨nm :: rest, true⟩ =
          NAME_PATH_SEPARATOR :: joinSep (nm :: rest) := by
        simp [TreeNamePath.toStr]
      rw [htos, from_str_eq,
        if_pos (show (NAME_PATH_SEPARATOR :: joinSep (nm :: rest)).head? =
          some NAME_PATH_SEPARATOR from rfl)]
      simp only [List.drop_succ_cons, List.drop_zero]
      rw [if_neg hjne, hsplit]
      exact make_eq_ok hvalid
    | false =>
      have htos : TreeNamePath.toStr ⟨nm :: rest, false⟩ = joinSep (nm :: rest) := by
        simp [TreeNamePath.toStr]
      rw [htos, from_str_eq, if_neg hjhead, if_neg hjne, hsplit]
      exact make_eq_ok hvalid

/-- C3 witness: the round trip evaluated at the concrete absolute path a/b. -/
theorem path_round_trip_witness :
    TreeNamePath.from_str (TreeNamePath.toStr ⟨[['a'], ['b']], true⟩) =
      .ok ⟨[['a'], ['b']], true⟩ ∧
    TreeNamePath.toStr ⟨[], true⟩ = [NAME_PATH_SEPARATOR] ∧
    TreeNamePath.toStr ⟨[], false⟩ = [] ∧
    TreeNamePath.from_str [NAME_PATH_SEPARATOR] = .ok ⟨[], true⟩ ∧
    TreeNamePath.from_str [] = .ok ⟨[], false⟩ :=
  path_round_trip ⟨[['a'], ['b']], true⟩ (by decide)

theorem verify_name_valid_ok_iff {nm : PyStr} :
    verify_name_valid nm = .ok () ↔ nm ≠ [] ∧ NAME_PATH_SEPARATOR ∉ nm := by
  unfold verify_name_valid
  by_cases h1 : nm = []
  · simp [h1]
  · by_cases h2 : NAME_PATH_SEPARATOR ∈ nm
    · simp [h1, h2]
    · simp [h1, h2]

theorem make_split_ok_iff {t : PyStr} {b : Bool} :
    (∃ p, (if t = [] then TreeNamePath.make [] b
           else TreeNamePath.make (splitSep t) b) = .ok p) ↔
      (t = [] ∨ ∀ nm ∈ splitSep t, nm ≠ []) := by
  by_cases ht : t = []
  · rw [if_pos ht]
    exact iff_of_true ⟨⟨[], b⟩, make_eq_ok (by simp)⟩ (.inl ht)
  · rw [if_neg ht, make_ok_iff]
    constructor
    · intro hall
      right
      intro nm hm
      exact (verify_name_valid_ok_iff.mp (hall nm hm)).1
    · rintro (hempty | hall)
      · exact absurd hempty ht
      · intro nm hm
        exact verify_name_valid_ok_iff.mpr ⟨hall nm hm, splitSep_mem_no_sep nm hm⟩

/-- C8 counterexample: decoding the separator-delimited string a//b raises
ValueError rather than succeeding, because the empty middle segment fails
name validation inside the TreeNamePath constructor. -/
theorem from_str_can_fail :
    TreeNamePath.from_str ['a', '/', '/', 'b'] = .error .emptyName := by decide

/-- C8 amended: decoding a separator-delimited string succeeds exactly when,
after removing one leading separator, the remainder is empty or every
separator-delimited segment is non-empty; an empty segment is rejected
eagerly by the name validation run in the TreeNamePath constructor, not
lazily at resolution time. -/
theorem from_str_ok_iff (s : PyStr) :
    (∃ p, TreeNamePath.from_str s = .ok p) ↔
      ((if s.head? = some NAME_PATH_SEPARATOR then s.drop 1 else s) = [] ∨
       ∀ nm ∈ splitSep (if s.head? = some NAME_PATH_SEPARATOR then s.drop 1 else s),
         nm ≠ []) := by
  rw [from_str_eq]
  by_cases h : s.head? = some NAME_PATH_SEPARATOR
  · simp only [if_pos h]
    exact make_split_ok_iff
  · simp only [if_neg h]
    exact make_split_ok_iff

/-! ### Binder ancestor search (C1) -/

theorem scan_eq_filter (origin_tags : List String) (prop_name : String)
    (skip_scripts : Bool) (l : List PropBinder) :
    scan_prop_binders origin_tags prop_name skip_scripts l =
      l.filter (fun b => decide (b.prop_name = prop_name ∧
        (skip_scripts = true → ¬ b.prop_type = SCRIPT_PROP_TYPE_ID) ∧
        criterion_satisfied b.bind_tags origin_tags = true)) := by
  induction l with
  | nil => rfl
  | cons b rest ih =>
    have hcond : (b.prop_name == prop_name &&
        !(skip_scripts && b.prop_type == SCRIPT_PROP_TYPE_ID) &&
        b.binds_to_node origin_tags) =
        decide (b.prop_name = prop_name ∧
          (skip_scripts = true → ¬ b.prop_type = SCRIPT_PROP_TYPE_ID) ∧
          criterion_satisfied b.bind_tags origin_tags = true) := by
      cases skip_scripts <;>
        cases hcrit : criterion_satisfied b.bind_tags origin_tags <;>
        by_cases h1 : b.prop_name = prop_name <;>
        by_cases h2 : b.prop_type = SCRIPT_PROP_TYPE_ID <;>
        simp [PropBinder.binds_to_node, hcrit, h1, h2]
    simp only [scan_prop_binders, List.filter_cons, hcond, ih]

/-- C1: for every node, property name and skip flag, the binder search yields
exactly the binders on the node and its ancestors whose prop_name matches,
whose bind criterion is satisfied by the originating node's own tag set, and
which are not of the Script type when skip_scripts is set; the yield order is
nearest ancestor first and, within one ancestor, the stored order of that
ancestor's binder list. -/
theorem find_prop_binders_spec (n : SeqNodeCtx) (prop_name : String)
    (skip_scripts : Bool) :
    n._find_prop_binders prop_name skip_scripts =
      claimed_prop_binder_search n prop_name skip_scripts := by
  unfold SeqNodeCtx._find_prop_binders claimed_prop_binder_search
  have hloop : ∀ ls, find_prop_binders_loop n.self.tags prop_name skip_scripts ls =
      (ls.map (fun a => a.prop_binders.filter (fun b =>
        decide (b.prop_name = prop_name ∧
          (skip_scripts = true → ¬ b.prop_type = SCRIPT_PROP_TYPE_ID) ∧
          criterion_satisfied b.bind_tags n.self.tags = true)))).flatten := by
    intro ls
    induction ls with
    | nil => rfl
    | cons a rest ih =>
      simp only [find_prop_binders_loop, List.map_cons, List.flatten_cons,
        scan_eq_filter, ih]
  exact hloop _

/-! ### Conversion fallback (C2), script errors (C7), shared list (C9),
take-first wrappers (C4) -/

/-- C2: the source constructs SCRIPTED_VAL_PROP_TYPE with True in the
conversion_func position (the constructor arguments are swapped), so
converting a value to the built-in Scripted Value type calls a non-callable
object and raises TypeError instead of succeeding or silently falling back to
the default value.  Evaluated at the string value abc converted from the
String type; this direction runs no user script, so the script semantics
argument is instantiated with a constant. -/
theorem scripted_val_convert_raises :
    SCRIPTED_VAL_PROP_TYPE.convert (fun v => .ok v) (.str "abc") STRING_PROP_TYPE =
      .error .typeErrorNotCallable := by decide

/-- C7: a failure inside exec, and likewise inside the entry point call, is
reported by formatting e.message, an attribute Python 3 exceptions do not
have, so the failure surfaces as AttributeError rather than as the claimed
single UserScriptError. -/
theorem invoke_user_script_attribute_error :
    invoke_user_script (.raised ⟨none⟩) = .error .attributeError ∧
    invoke_user_script (.completed true (.raised ⟨none⟩)) = .error .attributeError :=
  ⟨rfl, rfl⟩

/-- C9: SeqNode.__init__ evaluates its prop_binders=[] default once at class
definition time and stores the incoming reference without copying, so two
nodes constructed without the argument share one list object, and appending a
binder through the first node's reference is visible through the second
node's reference. -/
theorem seq_nodes_share_default_binder_list :
    (SeqNode.init "a" none).prop_binders = (SeqNode.init "b" none).prop_binders ∧
    (initListStore.append (SeqNode.init "a" none).prop_binders
        ⟨"x", 0, [], ""⟩).read (SeqNode.init "b" none).prop_binders =
      [⟨"x", 0, [], ""⟩] :=
  ⟨rfl, rfl⟩

/-- C4: SeqNode.find_prop_binder and SeqNode.find_prop_val look up the
attributes find_prop_binders and find_prop_vals, which the class does not
define (only the underscore-named generators exist), so every call raises
AttributeError instead of returning the first binder or value, or None or the
caller-supplied default on an empty search. -/
theorem find_prop_binder_raises (n : SeqNodeCtx) (prop_name : String)
    (skip_scripts : Bool) (default : Option String) :
    n.find_prop_binder prop_name skip_scripts = .error .attributeError ∧
    n.find_prop_val prop_name default skip_scripts = .error .attributeError :=
  ⟨rfl, rfl⟩

/-! ### Arena access lemmas -/

theorem n_setRec (st : TreeMem) (i : Nat) (r : NodeRec) : (st.setRec i r).n = st.n := by
  simp [TreeMem.setRec, TreeMem.n]

theorem recD_setRec_self {st : TreeMem} {i : Nat} (r : NodeRec) (h : i < st.n) :
    (st.setRec i r).recD i = r := by
  simp only [TreeMem.setRec, TreeMem.recD, List.getD_eq_getElem?_getD]
  rw [List.getElem?_set_self (by simpa [TreeMem.n] using h)]
  rfl

theorem recD_setRec_ne {st : TreeMem} {i j : Nat} (r : NodeRec) (h : j ≠ i) :
    (st.setRec i r).recD j = st.recD j := by
  simp only [TreeMem.setRec, TreeMem.recD, List.getD_eq_getElem?_getD]
  rw [List.getElem?_set_ne (fun he => h he.symm)]

theorem recD_setRec_oob {st : TreeMem} {i : Nat} (r : NodeRec) (h : ¬ i < st.n) :
    st.setRec i r = st := by
  simp only [TreeMem.setRec]
  rw [List.set_eq_of_length_le (by simpa [TreeMem.n] using Nat.le_of_not_lt h)]

theorem n_updChildren (st : TreeMem) (i : Nat) (f : SdList Nat → SdList Nat) :
    (st.updChildren i f).n = st.n := n_setRec ..

theorem n_updName (st : TreeMem) (i : Nat) (nm : PyStr) : (st.updName i nm).n = st.n :=
  n_setRec ..

theorem n_updParent (st : TreeMem) (i : Nat) (p : Option Nat) :
    (st.updParent i p).n = st.n := n_setRec ..

theorem parentOf_updChildren (st : TreeMem) (i : Nat) (f : SdList Nat → SdList Nat)
    (j : Nat) : (st.updChildren i f).parentOf j = st.parentOf j := by
  unfold TreeMem.updChildren TreeMem.parentOf
  by_cases hij : j = i
  · subst hij
    by_cases h : j < st.n
    · rw [recD_setRec_self _ h]
    · rw [recD_setRec_oob _ h]
  · rw [recD_setRec_ne _ hij]

theorem nameOf_updChildren (st : TreeMem) (i : Nat) (f : SdList Nat → SdList Nat)
    (j : Nat) : (st.updChildren i f).nameOf j = st.nameOf j := by
  unfold TreeMem.updChildren TreeMem.nameOf
  by_cases hij : j = i
  · subst hij
    by_cases h : j < st.n
    · rw [recD_setRec_self _ h]
    · rw [recD_setRec_oob _ h]
  · rw [recD_setRec_ne _ hij]

theorem chc_updChildren (st : TreeMem) (i : Nat) (f : SdList Nat → SdList Nat)
    (j : Nat) :
    ((st.updChildren i f).recD j).can_have_children = (st.recD j).can_have_children := by
  unfold TreeMem.updChildren
  by_cases hij : j = i
  · subst hij
    by_cases h : j < st.n
    · rw [recD_setRec_self _ h]
    · rw [recD_setRec_oob _ h]
  · rw [recD_setRec_ne _ hij]

theorem childrenOf_updChildren_self {st : TreeMem} {i : Nat}
    (f : SdList Nat → SdList Nat) (h : i < st.n) :
    (st.updChildren i f).childrenOf i = f (st.childrenOf i) := by
  unfold TreeMem.updChildren TreeMem.childrenOf
  rw [recD_setRec_self _ h]

theorem childrenOf_updChildren_ne {st : TreeMem} {i j : Nat}
    (f : SdList Nat → SdList Nat) (h : j ≠ i) :
    (st.updChildren i f).childrenOf j = st.childrenOf j := by
  unfold TreeMem.updChildren TreeMem.childrenOf
  rw [recD_setRec_ne _ h]

theorem parentOf_updParent_self {st : TreeMem} {i : Nat} (p : Option Nat) (h : i < st.n) :
    (st.updParent i p).parentOf i = p := by
  unfold TreeMem.updParent TreeMem.parentOf
  rw [recD_setRec_self _ h]

theorem parentOf_updParent_ne {st : TreeMem} {i j : Nat} (p : Option Nat) (h : j ≠ i) :
    (st.updParent i p).parentOf j = st.parentOf j := by
  unfold TreeMem.updParent TreeMem.parentOf
  rw [recD_setRec_ne _ h]

theorem nameOf_updParent (st : TreeMem) (i : Nat) (p : Option Nat) (j : Nat) :
    (st.updParent i p).nameOf j = st.nameOf j := by
  unfold TreeMem.updParent TreeMem.nameOf
  by_cases hij : j = i
  · subst hij
    by_cases h : j < st.n
    · rw [recD_setRec_self _ h]
    · rw [recD_setRec_oob _ h]
  · rw [recD_setRec_ne _ hij]

theorem childrenOf_updParent (st : TreeMem) (i : Nat) (p : Option Nat) (j : Nat) :
    (st.updParent i p).childrenOf j = st.childrenOf j := by
  unfold TreeMem.updParent TreeMem.childrenOf
  by_cases hij : j = i
  · subst hij
    by_cases h : j < st.n
    · rw [recD_setRec_self _ h]
    · rw [recD_setRec_oob _ h]
  · rw [recD_setRec_ne _ hij]

theorem chc_updParent (st : TreeMem) (i : Nat) (p : Option Nat) (j : Nat) :
    ((st.updParent i p).recD j).can_have_children = (st.recD j).can_have_children := by
  unfold TreeMem.updParent
  by_cases hij : j = i
  · subst hij
    by_cases h : j < st.n
    · rw [recD_setRec_self _ h]
    · rw [recD_setRec_oob _ h]
  · rw [recD_setRec_ne _ hij]

theorem nameOf_updName_self {st : TreeMem} {i : Nat} (nm : PyStr) (h : i < st.n) :
    (st.updName i nm).nameOf i = nm := by
  unfold TreeMem.updName TreeMem.nameOf
  rw [recD_setRec_self _ h]

theorem nameOf_updName_ne {st : TreeMem} {i j : Nat} (nm : PyStr) (h : j ≠ i) :
    (st.updName i nm).nameOf j = st.nameOf j := by
  unfold TreeMem.updName TreeMem.nameOf
  rw [recD_setRec_ne _ h]

theorem parentOf_updName (st : TreeMem) (i : Nat) (nm : PyStr) (j : Nat) :
    (st.updName i nm).parentOf j = st.parentOf j := by
  unfold TreeMem.updName TreeMem.parentOf
  by_cases hij : j = i
  · subst hij
    by_cases h : j < st.n
    · rw [recD_setRec_self _ h]
    · rw [recD_setRec_oob _ h]
  · rw [recD_setRec_ne _ hij]

theorem childrenOf_updName (st : TreeMem) (i : Nat) (nm : PyStr) (j : Nat) :
    (st.updName i nm).childrenOf j = st.childrenOf j := by
  unfold TreeMem.updName TreeMem.childrenOf
  by_cases hij : j = i
  · subst hij
    by_cases h : j < st.n
    · rw [recD_setRec_self _ h]
    · rw [recD_setRec_oob _ h]
  · rw [recD_setRec_ne _ hij]

theorem chc_updName (st : TreeMem) (i : Nat) (nm : PyStr) (j : Nat) :
    ((st.updName i nm).recD j).can_have_children = (st.recD j).can_have_children := by
  unfold TreeMem.updName
  by_cases hij : j = i
  · subst hij
    by_cases h : j < st.n
    · rw [recD_setRec_self _ h]
    · rw [recD_setRec_oob _ h]
  · rw [recD_setRec_ne _ hij]

theorem parentOf_oob {st : TreeMem} {j : Nat} (h : ¬ j < st.n) :
    st.parentOf j = none := by
  unfold TreeMem.parentOf TreeMem.recD
  rw [List.getD_eq_getElem?_getD, List.getElem?_eq_none (by
    simpa [TreeMem.n] using Nat.le_of_not_lt h)]
  rfl

/-! ### Walk lemmas -/

theorem ancWalk_congr {st st' : TreeMem} (hpar : ∀ j, st'.parentOf j = st.parentOf j) :
    ∀ (fuel : Nat) (o : Option Nat), ancWalk st' fuel o = ancWalk st fuel o := by
  intro fuel
  induction fuel with
  | zero => intro o; cases o <;> rfl
  | succ f ih =>
    intro o
    cases o with
    | none => rfl
    | some i =>
      show i :: ancWalk st' f (st'.parentOf i) = i :: ancWalk st f (st.parentOf i)
      rw [hpar i, ih]

theorem walkEnds_congr {st st' : TreeMem} (hpar : ∀ j, st'.parentOf j = st.parentOf j) :
    ∀ (fuel : Nat) (o : Option Nat), walkEnds st' fuel o = walkEnds st fuel o := by
  intro fuel
  induction fuel with
  | zero => intro o; cases o <;> rfl
  | succ f ih =>
    intro o
    cases o with
    | none => rfl
    | some i =>
      show walkEnds st' f (st'.parentOf i) = walkEnds st f (st.parentOf i)
      rw [hpar i, ih]

theorem walkEnds_mono {st : TreeMem} :
    ∀ {f1 f2 : Nat} {o : Option Nat}, f1 ≤ f2 → walkEnds st f1 o = true →
      walkEnds st f2 o = true := by
  intro f1
  induction f1 with
  | zero =>
    intro f2 o _ h
    cases o with
    | none => cases f2 <;> rfl
    | some i => cases h
  | succ f ih =>
    intro f2 o hle h
    cases o with
    | none => cases f2 <;> rfl
    | some i =>
      cases f2 with
      | zero => omega
      | succ f2' =>
        show walkEnds st f2' (st.parentOf i) = true
        exact ih (by omega) (show walkEnds st f (st.parentOf i) = true from h)

theorem iterParent_add (st : TreeMem) (a b x : Nat) :
    iterParent st (a + b) x =
      (match iterParent st a x with
       | none => none
       | some y => iterParent st b y) := by
  induction a generalizing x with
  | zero => simp [iterParent]
  | succ a ih =>
    have hrw : a + 1 + b = (a + b) + 1 := by omega
    rw [hrw]
    show (match st.parentOf x with
          | none => none
          | some p => iterParent st (a + b) p) =
      (match (match st.parentOf x with
              | none => none
              | some p => iterParent st a p) with
       | none => none
       | some y => iterParent st b y)
    cases hp : st.parentOf x with
    | none => rfl
    | some p => exact ih p

theorem iterParent_add_of {st : TreeMem} {a x y : Nat} (h : iterParent st a x = some y)
    (b : Nat) : iterParent st (a + b) x = iterParent st b y := by
  have e := iterParent_add st a b x
  rw [h] at e
  exact e

theorem mem_ancWalk_iter {st : TreeMem} :
    ∀ {fuel : Nat} {o : Option Nat} {a : Nat}, a ∈ ancWalk st fuel o →
      ∃ k j, o = some j ∧ iterParent st k j = some a := by
  intro fuel
  induction fuel with
  | zero => intro o a h; cases o <;> cases h
  | succ f ih =>
    intro o a h
    cases o with
    | none => cases h
    | some i =>
      rcases List.mem_cons.mp h with h1 | h1
      · exact ⟨0, i, rfl, by rw [h1]; rfl⟩
      · obtain ⟨k, j, hj, hk⟩ := ih h1
        refine ⟨k + 1, i, rfl, ?_⟩
        show (match st.parentOf i with
              | none => none
              | some p => iterParent st k p) = some a
        rw [hj]
        exact hk

theorem isAnc_of_mem_ancestors {st : TreeMem} {i a : Nat}
    (h : a ∈ ancWalk st (st.n + 1) (st.parentOf i)) : IsAnc st i a := by
  obtain ⟨k, j, hj, hk⟩ := mem_ancWalk_iter h
  refine ⟨k, ?_⟩
  show (match st.parentOf i with
        | none => none
        | some p => iterParent st k p) = some a
  rw [hj]
  exact hk

theorem iter_mem_ancWalk {st : TreeMem} :
    ∀ {k fuel i a : Nat}, walkEnds st fuel (st.parentOf i) = true →
      iterParent st (k + 1) i = some a → a ∈ ancWalk st fuel (st.parentOf i) := by
  intro k
  induction k with
  | zero =>
    intro fuel i a hends hit
    have hp : st.parentOf i = some a := by
      revert hit
      show (match st.parentOf i with
            | none => none
            | some p => iterParent st 0 p) = some a → st.parentOf i = some a
      cases hp : st.parentOf i with
      | none => intro h; cases h
      | some p =>
        intro h
        simp only [iterParent] at h
        rw [h]
    rw [hp] at hends ⊢
    cases fuel with
    | zero => cases hends
    | succ f => exact List.mem_cons_self _ _
  | succ k ih =>
    intro fuel i a hends hit
    have hstep : ∀ p, st.parentOf i = some p → iterParent st (k + 1) p = some a := by
      intro p hp
      revert hit
      show (match st.parentOf i with
            | none => none
            | some q => iterParent st (k + 1) q) = some a → _
      rw [hp]
      exact id
    cases hp : st.parentOf i with
    | none =>
      exfalso
      revert hit
      show (match st.parentOf i with
            | none => none
            | some q => iterParent st (k + 1) q) = some a → False
      rw [hp]
      intro h
      cases h
    | some p =>
      rw [hp] at hends
      cases fuel with
      | zero => cases hends
      | succ f =>
        have hends2 : walkEnds st f (st.parentOf p) = true := hends
        exact List.mem_cons_of_mem _ (ih hends2 (hstep p hp))

theorem iter_lt {st : TreeMem}
    (hb : ∀ i < st.n, ∀ p, st.parentOf i = some p → p < st.n) :
    ∀ {k i j : Nat}, i < st.n → iterParent st k i = some j → j < st.n := by
  intro k
  induction k with
  | zero =>
    intro i j hi h
    simp only [iterParent] at h
    cases h
    exact hi
  | succ k ih =>
    intro i j hi h
    revert h
    show (match st.parentOf i with
          | none => none
          | some p => iterParent st k p) = some j → j < st.n
    cases hp : st.parentOf i with
    | none => intro h; cases h
    | some p =>
      intro h
      exact ih (hb i hi p hp) h

theorem alive_of_not_ends {st : TreeMem} :
    ∀ {f i : Nat}, walkEnds st f (some i) = false →
      ∀ k < f, ∃ j, iterParent st k i = some j := by
  intro f
  induction f with
  | zero =>
    intro i _ k hk
    omega
  | succ f ih =>
    intro i h k hk
    have h2 : walkEnds st f (st.parentOf i) = false := h
    cases hp : st.parentOf i with
    | none =>
      rw [hp] at h2
      cases f <;> cases h2
    | some p =>
      rw [hp] at h2
      cases k with
      | zero => exact ⟨i, rfl⟩
      | succ k2 =>
        obtain ⟨j, hj⟩ := ih h2 k2 (by omega)
        refine ⟨j, ?_⟩
        show (match st.parentOf i with
              | none => none
              | some q => iterParent st k2 q) = some j
        rw [hp]
        exact hj

theorem no_iter_repeat {st : TreeMem} (ha : ∀ j, ¬ IsAnc st j j)
    {k1 k2 i z : Nat} (hlt : k1 < k2)
    (h1 : iterParent st k1 i = some z) (h2 : iterParent st k2 i = some z) : False := by
  have hd : k2 = k1 + (k2 - k1) := by omega
  rw [hd, iterParent_add] at h2
  rw [h1] at h2
  have hd2 : k2 - k1 = (k2 - k1 - 1) + 1 := by omega
  rw [hd2] at h2
  exact ha z ⟨k2 - k1 - 1, h2⟩

theorem ends_of_acyclic {st : TreeMem}
    (hb : ∀ i < st.n, ∀ p, st.parentOf i = some p → p < st.n)
    (ha : ∀ j, ¬ IsAnc st j j) :
    ∀ i < st.n, walkEnds st (st.n + 1) (some i) = true := by
  intro i hi
  by_contra hco
  have hfalse : walkEnds st (st.n + 1) (some i) = false := bool_eq_false hco
  have hchoice : ∀ k : Fin (st.n + 1), ∃ j, iterParent st k.1 i = some j ∧ j < st.n := by
    intro k
    obtain ⟨j, hj⟩ := alive_of_not_ends hfalse k.1 k.isLt
    exact ⟨j, hj, iter_lt hb hi hj⟩
  choose g hg1 hg2 using hchoice
  have hinj : Function.Injective (fun k : Fin (st.n + 1) => (⟨g k, hg2 k⟩ : Fin st.n)) := by
    intro k1 k2 heq
    simp only [Fin.mk.injEq] at heq
    rcases Nat.lt_trichotomy k1.1 k2.1 with hlt | heqk | hlt
    · exact absurd (no_iter_repeat ha hlt (hg1 k1) (heq ▸ hg1 k2)) (fun h => h)
    · exact Fin.ext heqk
    · exact absurd (no_iter_repeat ha hlt (hg1 k2) (heq ▸ hg1 k1)) (fun h => h)
  have hcard := Fintype.card_le_of_injective _ hinj
  simp only [Fintype.card_fin] at hcard
  omega

theorem not_isAnc_self_of_wf {st : TreeMem} (hwf : WF st) : ∀ j, ¬ IsAnc st j j := by
  intro j hanc
  by_cases hj : j < st.n
  · obtain ⟨k, hk⟩ := hanc
    have hends : walkEnds st (st.n + 1) (some j) = true := hwf.ends j hj
    have hends2 : walkEnds st st.n (st.parentOf j) = true := hends
    have hends3 : walkEnds st (st.n + 1) (st.parentOf j) = true :=
      walkEnds_mono (by omega) hends2
    exact hwf.acyclic j hj (iter_mem_ancWalk hends3 hk)
  · obtain ⟨k, hk⟩ := hanc
    have hpnone : st.parentOf j = none := parentOf_oob hj
    revert hk
    show (match st.parentOf j with
          | none => none
          | some p => iterParent st k p) = some j → False
    rw [hpnone]
    intro h
    cases h

/-! ### Acyclicity under a single parent update -/

theorem iter_congr_avoid {st st' : TreeMem} {c : Nat}
    (hpar : ∀ j, j ≠ c → st'.parentOf j = st.parentOf j) :
    ∀ {k x : Nat}, (∀ j < k, ∀ z, iterParent st' j x = some z → z ≠ c) →
      iterParent st' k x = iterParent st k x := by
  intro k
  induction k with
  | zero => intro x _; rfl
  | succ k ih =>
    intro x havoid
    have hx : x ≠ c := havoid 0 (Nat.succ_pos k) x rfl
    have hpx : st'.parentOf x = st.parentOf x := hpar x hx
    cases hp : st.parentOf x with
    | none =>
      have l1 : iterParent st' (k + 1) x = none := by
        show (match st'.parentOf x with
              | none => none
              | some p => iterParent st' k p) = none
        rw [hpx, hp]
      have l2 : iterParent st (k + 1) x = none := by
        show (match st.parentOf x with
              | none => none
              | some p => iterParent st k p) = none
        rw [hp]
      rw [l1, l2]
    | some p =>
      have hstep : ∀ j, iterParent st' (j + 1) x = iterParent st' j p := by
        intro j
        show (match st'.parentOf x with
              | none => none
              | some q => iterParent st' j q) = _
        rw [hpx, hp]
      have hgoal2 : iterParent st (k + 1) x = iterParent st k p := by
        show (match st.parentOf x with
              | none => none
              | some q => iterParent st k q) = _
        rw [hp]
      rw [hstep k, hgoal2]
      exact ih (fun j hj z hz => havoid (j + 1) (by omega) z (by rw [hstep j]; exact hz))

theorem no_new_path_to_c {st st' : TreeMem} {c p : Nat}
    (hpar : ∀ j, j ≠ c → st'.parentOf j = st.parentOf j)
    (hnotanc : ¬ IsAnc st p c) (hpc : p ≠ c) :
    ∀ k, ¬ iterParent st' k p = some c := by
  intro k
  induction k using Nat.strong_induction_on with
  | _ k ih =>
    intro hk
    by_cases hex : ∃ j, j < k ∧ iterParent st' j p = some c
    · obtain ⟨j, hj, hjc⟩ := hex
      exact ih j hj hjc
    · push_neg at hex
      have havoid : ∀ j < k, ∀ z, iterParent st' j p = some z → z ≠ c := by
        intro j hj z hz he
        exact hex j hj (he ▸ hz)
      rw [iter_congr_avoid hpar havoid] at hk
      cases k with
      | zero =>
        simp only [iterParent, Option.some.injEq] at hk
        exact hpc hk
      | succ k2 => exact hnotanc ⟨k2, hk⟩

theorem acyclic_update_some {st st' : TreeMem} {c p : Nat}
    (hparc : st'.parentOf c = some p)
    (hpar : ∀ j, j ≠ c → st'.parentOf j = st.parentOf j)
    (ha : ∀ j, ¬ IsAnc st j j)
    (hnotanc : ¬ IsAnc st p c) (hpc : p ≠ c) :
    ∀ j, ¬ IsAnc st' j j := by
  rintro i ⟨k, hk⟩
  by_cases hex : ∃ j, j ≤ k + 1 ∧ iterParent st' j i = some c
  · obtain ⟨j, hj, hjc⟩ := hex
    have e1 := iterParent_add_of hjc (k + 1)
    have e2 := iterParent_add_of hk j
    have hcyc : iterParent st' (k + 1) c = some c := by
      calc iterParent st' (k + 1) c = iterParent st' (j + (k + 1)) i := e1.symm
        _ = iterParent st' ((k + 1) + j) i := by rw [Nat.add_comm]
        _ = iterParent st' j i := e2
        _ = some c := hjc
    have hone : iterParent st' (k + 1) c = iterParent st' k p := by
      show (match st'.parentOf c with
            | none => none
            | some q => iterParent st' k q) = _
      rw [hparc]
    rw [hone] at hcyc
    exact no_new_path_to_c hpar hnotanc hpc k hcyc
  · push_neg at hex
    have havoid : ∀ j < k + 1, ∀ z, iterParent st' j i = some z → z ≠ c := by
      intro j hj z hz he
      exact hex j (by omega) (he ▸ hz)
    rw [iter_congr_avoid hpar havoid] at hk
    exact ha i ⟨k, hk⟩

theorem acyclic_update_none {st st' : TreeMem} {c : Nat}
    (hparc : st'.parentOf c = none)
    (hpar : ∀ j, j ≠ c → st'.parentOf j = st.parentOf j)
    (ha : ∀ j, ¬ IsAnc st j j) :
    ∀ j, ¬ IsAnc st' j j := by
  rintro i ⟨k, hk⟩
  by_cases hex : ∃ j, j ≤ k + 1 ∧ iterParent st' j i = some c
  · obtain ⟨j, hj, hjc⟩ := hex
    have e1 := iterParent_add_of hjc (k + 1)
    have e2 := iterParent_add_of hk j
    have hcyc : iterParent st' (k + 1) c = some c := by
      calc iterParent st' (k + 1) c = iterParent st' (j + (k + 1)) i := e1.symm
        _ = iterParent st' ((k + 1) + j) i := by rw [Nat.add_comm]
        _ = iterParent st' j i := e2
        _ = some c := hjc
    have hone : iterParent st' (k + 1) c = none := by
      show (match st'.parentOf c with
            | none => none
            | some q => iterParent st' k q) = none
      rw [hparc]
    rw [hone] at hcyc
    cases hcyc
  · push_neg at hex
    have havoid : ∀ j < k + 1, ∀ z, iterParent st' j i = some z → z ≠ c := by
      intro j hj z hz he
      exact hex j (by omega) (he ▸ hz)
    rw [iter_congr_avoid hpar havoid] at hk
    exact ha i ⟨k, hk⟩

/-! ### Well-formedness preservation -/

theorem WF.reattach {st st' : TreeMem} (hwf : WF st) {c : Nat} {par : Option Nat}
    (hc : c < st.n)
    (hn : st'.n = st.n)
    (hname : ∀ j, st'.nameOf j = st.nameOf j)
    (hpar : ∀ j, j ≠ c → st'.parentOf j = st.parentOf j)
    (hparc : st'.parentOf c = par)
    (hch : ∀ q, q < st.n → ∀ e, e ∈ st'.childrenOf q ↔
      ((e ∈ st.childrenOf q ∧ e.2 ≠ c ∧ ¬(par = some q ∧ e.1 = st.nameOf c)) ∨
       (par = some q ∧ e = (st.nameOf c, c))))
    (hsorted : ∀ q, q < st.n → SdSorted (st'.childrenOf q))
    (hfree : ∀ p, par = some p → ∀ e ∈ st.childrenOf p, e.2 ≠ c → e.1 ≠ st.nameOf c)
    (hpc : ∀ p, par = some p → p < st.n ∧ p ≠ c ∧ ¬ IsAnc st p c) :
    WF st' := by
  have ha_old : ∀ j, ¬ IsAnc st j j := not_isAnc_self_of_wf hwf
  have ha_new : ∀ j, ¬ IsAnc st' j j := by
    cases hpo : par with
    | none => exact acyclic_update_none (hpo ▸ hparc) hpar ha_old
    | some p =>
      obtain ⟨hplt, hpne, hpnot⟩ := hpc p hpo
      exact acyclic_update_some (hpo ▸ hparc) hpar ha_old hpnot hpne
  have hblt : ∀ i < st'.n, ∀ p, st'.parentOf i = some p → p < st'.n := by
    intro i hi p hp
    rw [hn] at hi ⊢
    by_cases hic : i = c
    · subst hic
      rw [hparc] at hp
      exact (hpc p hp).1
    · rw [hpar i hic] at hp
      exact hwf.parent_lt i hi p hp
  refine ⟨?_, hblt, ?_, ?_, ?_, ?_, ?_, ?_⟩
  · intro i hi
    rw [hn] at hi
    exact hsorted i hi
  · intro i hi e he
    rw [hn] at hi ⊢
    rcases (hch i hi e).mp he with ⟨hm, _, _⟩ | ⟨_, he2⟩
    · exact hwf.child_lt i hi e hm
    · rw [he2]
      exact hc
  · intro i hi e he
    rw [hn] at hi
    rcases (hch i hi e).mp he with ⟨hm, hne, _⟩ | ⟨hq, he2⟩
    · obtain ⟨h1, h2⟩ := hwf.mirror_down i hi e hm
      exact ⟨(hname e.2).trans h1, (hpar e.2 hne).trans h2⟩
    · subst he2
      exact ⟨hname c, by rw [hparc, hq]⟩
  · intro i hi p hp
    rw [hn] at hi
    by_cases hic : i = c
    · subst hic
      rw [hparc] at hp
      rw [hname i]
      exact (hch p (hpc p hp).1 _).mpr (.inr ⟨hp, rfl⟩)
    · rw [hpar i hic] at hp
      have hmem := hwf.mirror_up i hi p hp
      rw [hname i]
      refine (hch p (hwf.parent_lt i hi p hp) _).mpr (.inl ⟨hmem, hic, ?_⟩)
      rintro ⟨hq, hkey⟩
      exact hfree p hq (st.nameOf i, i) hmem hic hkey
  · intro i hi
    rw [hname i, hn] at *
    exact hwf.names_ok i hi
  · intro i hi
    exact ends_of_acyclic hblt ha_new i hi
  · intro i hi
    exact fun him => ha_new i (isAnc_of_mem_ancestors him)

theorem WF.rename_root {st : TreeMem} (hwf : WF st) {c : Nat} {nm : PyStr}
    (hc : c < st.n) (hroot : st.parentOf c = none)
    (hvalid : verify_name_valid nm = .ok ()) : WF (st.updName c nm) := by
  have hpar : ∀ j, (st.updName c nm).parentOf j = st.parentOf j := parentOf_updName st c nm
  have hchn : ∀ q, (st.updName c nm).childrenOf q = st.childrenOf q :=
    childrenOf_updName st c nm
  have hn : (st.updName c nm).n = st.n := n_updName ..
  have hnotchild : ∀ q, q < st.n → ∀ e ∈ st.childrenOf q, e.2 ≠ c := by
    intro q hq e he hec
    have h2 := (hwf.mirror_down q hq e he).2
    rw [hec, hroot] at h2
    cases h2
  refine ⟨?_, ?_, ?_, ?_, ?_, ?_, ?_, ?_⟩
  · intro i hi
    rw [hchn]
    exact hwf.sorted i (hn ▸ hi)
  · intro i hi p hp
    rw [hn] at hi ⊢
    rw [hpar] at hp
    exact hwf.parent_lt i hi p hp
  · intro i hi e he
    rw [hn] at hi ⊢
    rw [hchn] at he
    exact hwf.child_lt i hi e he
  · intro i hi e he
    rw [hn] at hi
    rw [hchn] at he
    obtain ⟨h1, h2⟩ := hwf.mirror_down i hi e he
    refine ⟨?_, by rw [hpar]; exact h2⟩
    rw [nameOf_updName_ne _ (hnotchild i hi e he)]
    exact h1
  · intro i hi p hp
    rw [hn] at hi
    rw [hpar] at hp
    by_cases hic : i = c
    · subst hic
      rw [hroot] at hp
      cases hp
    · rw [nameOf_updName_ne _ hic, hchn]
      exact hwf.mirror_up i hi p hp
  · intro i hi
    rw [hn] at hi
    by_cases hic : i = c
    · subst hic
      rw [nameOf_updName_self _ hc]
      exact hvalid
    · rw [nameOf_updName_ne _ hic]
      exact hwf.names_ok i hi
  · intro i hi
    rw [hn] at hi
    rw [walkEnds_congr hpar, hn]
    exact hwf.ends i hi
  · intro i hi
    rw [hn] at hi
    have hanc : (st.updName c nm).ancestorsOf i = st.ancestorsOf i := by
      unfold TreeMem.ancestorsOf
      rw [ancWalk_congr hpar, hn, hpar i]
    rw [hanc]
    exact hwf.acyclic i hi

/-! ### Verification characterizations and small consequences of WF -/

theorem sdGet?_mem {α : Type} {m : SdList α} {k : PyStr} {v : α}
    (h : sdGet? m k = some v) : (k, v) ∈ m := by
  induction m with
  | nil => cases h
  | cons e rest ih =>
    simp only [sdGet?] at h
    by_cases h1 : e.1 = k
    · rw [if_pos h1] at h
      cases h
      exact List.mem_cons.mpr (.inl (by rw [← h1]))
    · rw [if_neg h1] at h
      exact List.mem_cons_of_mem _ (ih h)

theorem verify_child_name_available_ok {st : TreeMem} {self : Nat} {name : PyStr} :
    verify_child_name_available st self name = .ok () ↔
      (verify_name_valid name = .ok () ∧ (st.recD self).can_have_children = true ∧
       sdContains (st.childrenOf self) name = false) := by
  unfold verify_child_name_available
  cases hv : verify_name_valid name with
  | error e => simp [hv, Bind.bind, Except.bind]
  | ok u =>
    cases u
    simp only [hv, Bind.bind, Except.bind]
    by_cases h1 : (st.recD self).can_have_children = false
    · simp [h1]
    · have h1t : (st.recD self).can_have_children = true := by
        cases hb : (st.recD self).can_have_children
        · exact absurd hb h1
        · rfl
      rw [if_neg h1]
      by_cases h2 : sdContains (st.childrenOf self) name = true
      · simp [h2, h1t]
      · simp [bool_eq_false h2, h1t]

theorem verify_can_add_ok_cases {st : TreeMem} {p c : Nat}
    (h : verify_can_add_as_child st p c = .ok ()) :
    sdGet? (st.childrenOf p) (st.nameOf c) = some c ∨
    (verify_name_valid (st.nameOf c) = .ok () ∧
     (st.recD p).can_have_children = true ∧
     sdContains (st.childrenOf p) (st.nameOf c) = false ∧
     p ≠ c ∧ c ∉ st.ancestorsOf p) := by
  unfold verify_can_add_as_child at h
  by_cases h1 : sdGet? (st.childrenOf p) (st.nameOf c) = some c
  · exact .inl h1
  · rw [if_neg h1] at h
    right
    cases hv : verify_child_name_available st p (st.nameOf c) with
    | error e => simp [hv, Bind.bind, Except.bind] at h
    | ok u =>
      cases u
      simp only [hv, Bind.bind, Except.bind] at h
      by_cases h2 : p = c
      · simp [h2] at h
      · by_cases h3 : c ∈ st.ancestorsOf p
        · simp [h2, h3] at h
        · obtain ⟨hn1, hc1, hcon⟩ := verify_child_name_available_ok.mp hv
          exact ⟨hn1, hc1, hcon, h2, h3⟩

theorem verify_can_add_ok_slow {st : TreeMem} {p c : Nat}
    (h1 : verify_name_valid (st.nameOf c) = .ok ())
    (h2 : (st.recD p).can_have_children = true)
    (h3 : sdContains (st.childrenOf p) (st.nameOf c) = false)
    (h4 : ¬ p = c) (h5 : ¬ c ∈ st.ancestorsOf p) :
    verify_can_add_as_child st p c = .ok () := by
  unfold verify_can_add_as_child
  have hget : ¬ sdGet? (st.childrenOf p) (st.nameOf c) = some c := by
    intro hg
    rw [sdContains_iff.mpr ⟨c, sdGet?_mem hg⟩] at h3
    cases h3
  rw [if_neg hget]
  have hava := verify_child_name_available_ok.mpr ⟨h1, h2, h3⟩
  simp only [hava, Bind.bind, Except.bind]
  rw [if_neg h4, if_neg h5]

theorem isAnc_of_parent_anc {st : TreeMem} {c p a : Nat}
    (hold : st.parentOf c = some p) (h : IsAnc st p a) : IsAnc st c a := by
  obtain ⟨k, hk⟩ := h
  refine ⟨k + 1, ?_⟩
  show (match st.parentOf c with
        | none => none
        | some q => iterParent st (k + 1) q) = some a
  rw [hold]
  exact hk

theorem isAnc_parent {st : TreeMem} {c p : Nat} (hold : st.parentOf c = some p) :
    IsAnc st c p := by
  refine ⟨0, ?_⟩
  show (match st.parentOf c with
        | none => none
        | some q => iterParent st 0 q) = some p
  rw [hold]
  rfl

theorem isAnc_mem_ancestors_of_wf {st : TreeMem} (hwf : WF st) {p a : Nat}
    (hp : p < st.n) (h : IsAnc st p a) : a ∈ st.ancestorsOf p := by
  obtain ⟨k, hk⟩ := h
  have hends2 : walkEnds st st.n (st.parentOf p) = true := hwf.ends p hp
  exact iter_mem_ancWalk (walkEnds_mono (by omega) hends2) hk

theorem parent_ne_self_of_wf {st : TreeMem} (hwf : WF st) {c p : Nat}
    (hold : st.parentOf c = some p) : p ≠ c := by
  intro he
  subst he
  exact not_isAnc_self_of_wf hwf p (isAnc_parent hold)

theorem not_anc_of_parent {st : TreeMem} (hwf : WF st) {c p : Nat}
    (hold : st.parentOf c = some p) : ¬ IsAnc st p c := fun h =>
  not_isAnc_self_of_wf hwf c (isAnc_of_parent_anc hold h)

theorem child_entry_of_val {st : TreeMem} (hwf : WF st) {q c : Nat} (hq : q < st.n)
    {e : PyStr × Nat} (he : e ∈ st.childrenOf q) (hec : e.2 = c) :
    st.parentOf c = some q ∧ e = (st.nameOf c, c) := by
  obtain ⟨h1, h2⟩ := hwf.mirror_down q hq e he
  rw [hec] at h1 h2
  refine ⟨h2, ?_⟩
  cases e with
  | mk k v =>
    simp only at hec
    subst hec
    simp only at h1
    rw [← h1]

theorem sdSorted_key_inj {α : Type} {m : SdList α} (hs : SdSorted m)
    {e f : PyStr × α} (he : e ∈ m) (hf : f ∈ m) (hk : e.1 = f.1) : e = f := by
  induction m with
  | nil => cases he
  | cons a rest ih =>
    obtain ⟨hhead, hrest⟩ := sdSorted_cons.mp hs
    rcases List.mem_cons.mp he with h1 | h1 <;> rcases List.mem_cons.mp hf with h2 | h2
    · rw [h1, h2]
    · exfalso
      have := hhead f h2
      rw [← hk, ← h1] at this
      rw [h1, strLt_irrefl] at this
      cases this
    · exfalso
      have := hhead e h1
      rw [hk, ← h2] at this
      rw [h2, strLt_irrefl] at this
      cases this
    · exact ih hrest h1 h2

/-! ### Behaviour of the parent setter -/

theorem set_parent_verify_error {st : TreeMem} {c p : Nat} {e : PyErr}
    (hver : verify_can_add_as_child st p c = .error e) :
    NamedTreeNode.set_parent st c (some p) = .error e st := by
  unfold NamedTreeNode.set_parent
  simp [hver]

theorem set_parent_some_eq {st : TreeMem} {c p : Nat} (hwf : WF st) (hc : c < st.n)
    (hver : verify_can_add_as_child st p c = .ok ()) :
    NamedTreeNode.set_parent st c (some p) = .ok
      (((match st.parentOf c with
         | some oldp => st.updChildren oldp (fun m => sdErase m (st.nameOf c))
         | none => st).updChildren p
           (fun m => sdInsert m (st.nameOf c) c)).updParent c (some p)) := by
  unfold NamedTreeNode.set_parent
  simp only [hver]
  cases hold : st.parentOf c with
  | none =>
    unfold finishSetParent
    rfl
  | some oldp =>
    have hcont : sdContains (st.childrenOf oldp) (st.nameOf c) = true :=
      sdContains_iff.mpr ⟨c, hwf.mirror_up c hc oldp hold⟩
    show (if sdContains (st.childrenOf oldp) (st.nameOf c) = true then
        finishSetParent (st.updChildren oldp (fun m => sdErase m (st.nameOf c))) c (some p)
      else OpResult.error PyErr.keyError st) =
      OpResult.ok (((st.updChildren oldp (fun m => sdErase m (st.nameOf c))).updChildren p
        (fun m => sdInsert m (st.nameOf c) c)).updParent c (some p))
    rw [if_pos hcont]
    unfold finishSetParent
    rw [nameOf_updChildren]

theorem set_parent_none_eq {st : TreeMem} {c : Nat} (hwf : WF st) (hc : c < st.n) :
    NamedTreeNode.set_parent st c none = .ok
      ((match st.parentOf c with
        | some oldp => st.updChildren oldp (fun m => sdErase m (st.nameOf c))
        | none => st).updParent c none) := by
  unfold NamedTreeNode.set_parent
  cases hold : st.parentOf c with
  | none =>
    unfold finishSetParent
    rfl
  | some oldp =>
    have hcont : sdContains (st.childrenOf oldp) (st.nameOf c) = true :=
      sdContains_iff.mpr ⟨c, hwf.mirror_up c hc oldp hold⟩
    show (if sdContains (st.childrenOf oldp) (st.nameOf c) = true then
        finishSetParent (st.updChildren oldp (fun m => sdErase m (st.nameOf c))) c none
      else OpResult.error PyErr.keyError st) =
      OpResult.ok ((st.updChildren oldp (fun m => sdErase m (st.nameOf c))).updParent c none)
    rw [if_pos hcont]
    unfold finishSetParent
    rfl

theorem not_child_val {st : TreeMem} (hwf : WF st) {c q : Nat} (hq : q < st.n)
    (hnotpar : ¬ st.parentOf c = some q) {e : PyStr × Nat}
    (he : e ∈ st.childrenOf q) : e.2 ≠ c := fun hec =>
  hnotpar (child_entry_of_val hwf hq he hec).1

theorem erase_self_mem_iff {st : TreeMem} (hwf : WF st) {c oldp : Nat}
    (hc : c < st.n) (holdp : oldp < st.n) (hold : st.parentOf c = some oldp)
    {e : PyStr × Nat} :
    e ∈ sdErase (st.childrenOf oldp) (st.nameOf c) ↔
      e ∈ st.childrenOf oldp ∧ e.2 ≠ c := by
  have hmemold : (st.nameOf c, c) ∈ st.childrenOf oldp := hwf.mirror_up c hc oldp hold
  rw [mem_sdErase (hwf.sorted oldp holdp)]
  constructor
  · rintro ⟨hm, hk⟩
    refine ⟨hm, fun hec => hk ?_⟩
    rw [(child_entry_of_val hwf holdp hm hec).2]
  · rintro ⟨hm, hv⟩
    refine ⟨hm, fun hk => hv ?_⟩
    have he2 := sdSorted_key_inj (hwf.sorted oldp holdp) hm hmemold hk
    rw [he2]


theorem parent_ne_of_hold {st : TreeMem} {c q oldp : Nat}
    (hold : st.parentOf c = some oldp) (hqo : ¬ q = oldp) :
    ¬ st.parentOf c = some q := by
  rw [hold]
  intro hh
  exact hqo (Option.some.inj hh).symm

theorem parent_ne_of_root {st : TreeMem} {c q : Nat} (hold : st.parentOf c = none) :
    ¬ st.parentOf c = some q := by
  rw [hold]
  exact fun h => Option.noConfusion h

theorem insert_mem_iff_slow {st : TreeMem} (hwf : WF st) {c p : Nat} (hp : p < st.n)
    (hnotpar : ¬ st.parentOf c = some p) {e : PyStr × Nat} :
    e ∈ sdInsert (st.childrenOf p) (st.nameOf c) c ↔
      ((e ∈ st.childrenOf p ∧ e.2 ≠ c ∧ ¬ e.1 = st.nameOf c) ∨ e = (st.nameOf c, c)) := by
  rw [mem_sdInsert (hwf.sorted p hp)]
  constructor
  · rintro (h | ⟨hm, hk⟩)
    · exact .inr h
    · exact .inl ⟨hm, not_child_val hwf hp hnotpar hm, hk⟩
  · rintro (⟨hm, _, hk⟩ | h)
    · exact .inr ⟨hm, hk⟩
    · exact .inl h

theorem set_parent_ok_wf {st : TreeMem} {c : Nat} {par : Option Nat} (hwf : WF st)
    (hc : c < st.n) (hplt : ∀ q, par = some q → q < st.n)
    {st2 : TreeMem} (hok : NamedTreeNode.set_parent st c par = .ok st2) :
    WF st2 ∧ st2.n = st.n := by
  cases par with
  | none =>
    rw [set_parent_none_eq hwf hc] at hok
    cases hold : st.parentOf c with
    | none =>
      rw [hold] at hok
      injection hok with h
      subst h
      show WF (st.updParent c none) ∧ (st.updParent c none).n = st.n
      refine ⟨?_, n_updParent ..⟩
      refine WF.reattach hwf hc (n_updParent ..)
        (fun j => nameOf_updParent ..) (fun j hj => parentOf_updParent_ne _ hj)
        (parentOf_updParent_self _ hc) ?_ ?_
        (fun p hp => Option.noConfusion hp) (fun p hp => Option.noConfusion hp)
      · intro q hq e
        rw [childrenOf_updParent]
        constructor
        · intro he
          refine .inl ⟨he, not_child_val hwf hq (parent_ne_of_root hold) he, ?_⟩
          rintro ⟨h2, _⟩
          cases h2
        · rintro (⟨he, _, _⟩ | ⟨h2, _⟩)
          · exact he
          · cases h2
      · intro q hq
        rw [childrenOf_updParent]
        exact hwf.sorted q hq
    | some oldp =>
      rw [hold] at hok
      injection hok with h
      subst h
      have holdp : oldp < st.n := hwf.parent_lt c hc oldp hold
      show WF ((st.updChildren oldp (fun m => sdErase m (st.nameOf c))).updParent c none) ∧
        ((st.updChildren oldp (fun m => sdErase m (st.nameOf c))).updParent c none).n = st.n
      refine ⟨?_, by rw [n_updParent, n_updChildren]⟩
      refine WF.reattach hwf hc
        (by rw [n_updParent, n_updChildren])
        (fun j => by rw [nameOf_updParent, nameOf_updChildren])
        (fun j hj => by rw [parentOf_updParent_ne _ hj, parentOf_updChildren])
        (parentOf_updParent_self _ (by rw [n_updChildren]; exact hc)) ?_ ?_
        (fun p hp => Option.noConfusion hp) (fun p hp => Option.noConfusion hp)
      · intro q hq e
        rw [childrenOf_updParent]
        by_cases hqo : q = oldp
        · subst hqo
          rw [childrenOf_updChildren_self _ holdp,
            erase_self_mem_iff hwf hc holdp hold]
          constructor
          · rintro ⟨he, hv⟩
            refine .inl ⟨he, hv, ?_⟩
            rintro ⟨h2, _⟩
            cases h2
          · rintro (⟨he, hv, _⟩ | ⟨h2, _⟩)
            · exact ⟨he, hv⟩
            · cases h2
        · rw [childrenOf_updChildren_ne _ hqo]
          constructor
          · intro he
            refine .inl ⟨he, not_child_val hwf hq (parent_ne_of_hold hold hqo) he, ?_⟩
            rintro ⟨h2, _⟩
            cases h2
          · rintro (⟨he, _, _⟩ | ⟨h2, _⟩)
            · exact he
            · cases h2
      · intro q hq
        rw [childrenOf_updParent]
        by_cases hqo : q = oldp
        · subst hqo
          rw [childrenOf_updChildren_self _ holdp]
          exact sdErase_sorted (hwf.sorted q hq)
        · rw [childrenOf_updChildren_ne _ hqo]
          exact hwf.sorted q hq
  | some p =>
    have hp : p < st.n := hplt p rfl
    cases hv : verify_can_add_as_child st p c with
    | error e =>
      rw [set_parent_verify_error hv] at hok
      cases hok
    | ok u =>
      cases u
      rw [set_parent_some_eq hwf hc hv] at hok
      rcases verify_can_add_ok_cases hv with hfast | ⟨hnm, hchc, hncont, hpne, hnanc⟩
      · -- fast path: c is already exactly this child of p
        have hmemf : (st.nameOf c, c) ∈ st.childrenOf p := sdGet?_mem hfast
        have hpold : st.parentOf c = some p := (hwf.mirror_down p hp _ hmemf).2
        rw [hpold] at hok
        injection hok with h
        subst h
        show WF (((st.updChildren p (fun m => sdErase m (st.nameOf c))).updChildren p
            (fun m => sdInsert m (st.nameOf c) c)).updParent c (some p)) ∧
          (((st.updChildren p (fun m => sdErase m (st.nameOf c))).updChildren p
            (fun m => sdInsert m (st.nameOf c) c)).updParent c (some p)).n = st.n
        refine ⟨?_, by rw [n_updParent, n_updChildren, n_updChildren]⟩
        have hpc2 : p ≠ c := parent_ne_self_of_wf hwf hpold
        have hcfinal : ((st.updChildren p (fun m => sdErase m (st.nameOf c))).updChildren p
            (fun m => sdInsert m (st.nameOf c) c)).childrenOf p = st.childrenOf p := by
          rw [childrenOf_updChildren_self _ (by rw [n_updChildren]; exact hp),
            childrenOf_updChildren_self _ hp]
          exact sdInsert_sdErase_self (hwf.sorted p hp) hmemf
        refine WF.reattach hwf hc
          (by rw [n_updParent, n_updChildren, n_updChildren])
          (fun j => by rw [nameOf_updParent, nameOf_updChildren, nameOf_updChildren])
          (fun j hj => by
            rw [parentOf_updParent_ne _ hj, parentOf_updChildren, parentOf_updChildren])
          (parentOf_updParent_self _ (by rw [n_updChildren, n_updChildren]; exact hc))
          ?_ ?_ ?_ ?_
        · intro q hq e
          rw [childrenOf_updParent]
          by_cases hqp : q = p
          · subst hqp
            rw [hcfinal]
            constructor
            · intro he
              by_cases hec : e = (st.nameOf c, c)
              · exact .inr ⟨rfl, hec⟩
              · refine .inl ⟨he, ?_, ?_⟩
                · intro hv2
                  exact hec (child_entry_of_val hwf hq he hv2).2
                · rintro ⟨_, hk⟩
                  exact hec (sdSorted_key_inj (hwf.sorted q hq) he hmemf hk)
            · rintro (⟨he, _, _⟩ | ⟨_, he2⟩)
              · exact he
              · rw [he2]
                exact hmemf
          · rw [childrenOf_updChildren_ne _ hqp, childrenOf_updChildren_ne _ hqp]
            constructor
            · intro he
              refine .inl ⟨he, not_child_val hwf hq (parent_ne_of_hold hpold
                (fun h2 => hqp h2)) he, ?_⟩
              rintro ⟨hq2, _⟩
              exact hqp (Option.some.inj hq2).symm
            · rintro (⟨he, _, _⟩ | ⟨hq2, _⟩)
              · exact he
              · exact absurd (Option.some.inj hq2).symm hqp
        · intro q hq
          rw [childrenOf_updParent]
          by_cases hqp : q = p
          · subst hqp
            rw [hcfinal]
            exact hwf.sorted q hq
          · rw [childrenOf_updChildren_ne _ hqp, childrenOf_updChildren_ne _ hqp]
            exact hwf.sorted q hq
        · intro q hq e he hev hek
          have hqp : q = p := (Option.some.inj hq).symm
          subst hqp
          have he2 := sdSorted_key_inj (hwf.sorted q hp) he hmemf hek
          exact hev (by rw [he2])
        · intro q hq
          have hqp : q = p := (Option.some.inj hq).symm
          subst hqp
          exact ⟨hp, hpc2, not_anc_of_parent hwf hpold⟩
      · -- slow path: new parent gains a genuinely new child
        have hnotanc : ¬ IsAnc st p c := fun h =>
          hnanc (isAnc_mem_ancestors_of_wf hwf hp h)
        have hfreep : ∀ e ∈ st.childrenOf p, e.1 ≠ st.nameOf c := fun e he =>
          sdContains_false hncont e he
        cases hold : st.parentOf c with
        | none =>
          rw [hold] at hok
          injection hok with h
          subst h
          have hnotpar : ¬ st.parentOf c = some p := parent_ne_of_root hold
          show WF ((st.updChildren p (fun m => sdInsert m (st.nameOf c) c)).updParent c
              (some p)) ∧
            ((st.updChildren p (fun m => sdInsert m (st.nameOf c) c)).updParent c
              (some p)).n = st.n
          refine ⟨?_, by rw [n_updParent, n_updChildren]⟩
          refine WF.reattach hwf hc
            (by rw [n_updParent, n_updChildren])
            (fun j => by rw [nameOf_updParent, nameOf_updChildren])
            (fun j hj => by rw [parentOf_updParent_ne _ hj, parentOf_updChildren])
            (parentOf_updParent_self _ (by rw [n_updChildren]; exact hc))
            ?_ ?_ ?_ ?_
          · intro q hq e
            rw [childrenOf_updParent]
            by_cases hqp : q = p
            · subst hqp
              rw [childrenOf_updChildren_self _ hp,
                insert_mem_iff_slow hwf hp hnotpar]
              constructor
              · rintro (⟨he, hv, hk⟩ | he)
                · exact .inl ⟨he, hv, fun h2 => hk h2.2⟩
                · exact .inr ⟨rfl, he⟩
              · rintro (⟨he, hv, hk⟩ | ⟨_, he⟩)
                · exact .inl ⟨he, hv, fun h2 => hk ⟨rfl, h2⟩⟩
                · exact .inr he
            · rw [childrenOf_updChildren_ne _ hqp]
              constructor
              · intro he
                refine .inl ⟨he, not_child_val hwf hq (parent_ne_of_root hold) he, ?_⟩
                rintro ⟨hq2, _⟩
                exact hqp (Option.some.inj hq2).symm
              · rintro (⟨he, _, _⟩ | ⟨hq2, _⟩)
                · exact he
                · exact absurd (Option.some.inj hq2).symm hqp
          · intro q hq
            rw [childrenOf_updParent]
            by_cases hqp : q = p
            · subst hqp
              rw [childrenOf_updChildren_self _ hp]
              exact sdInsert_sorted (hwf.sorted q hq)
            · rw [childrenOf_updChildren_ne _ hqp]
              exact hwf.sorted q hq
          · intro q hq e he _ hek
            have hqp : q = p := (Option.some.inj hq).symm
            subst hqp
            exact hfreep e he hek
          · intro q hq
            have hqp : q = p := (Option.some.inj hq).symm
            subst hqp
            exact ⟨hp, hpne, hnotanc⟩
        | some oldp =>
          rw [hold] at hok
          injection hok with h
          subst h
          have holdp : oldp < st.n := hwf.parent_lt c hc oldp hold
          have hmemold : (st.nameOf c, c) ∈ st.childrenOf oldp :=
            hwf.mirror_up c hc oldp hold
          have hopne : ¬ oldp = p := by
            intro h2
            subst h2
            rw [sdContains_iff.mpr ⟨c, hmemold⟩] at hncont
            cases hncont
          have hnotpar : ¬ st.parentOf c = some p :=
            parent_ne_of_hold hold (fun h2 => hopne h2.symm)
          show WF (((st.updChildren oldp
              (fun m => sdErase m (st.nameOf c))).updChildren p
              (fun m => sdInsert m (st.nameOf c) c)).updParent c (some p)) ∧
            (((st.updChildren oldp
              (fun m => sdErase m (st.nameOf c))).updChildren p
              (fun m => sdInsert m (st.nameOf c) c)).updParent c (some p)).n = st.n
          refine ⟨?_, by rw [n_updParent, n_updChildren, n_updChildren]⟩
          have hch1 : ((st.updChildren oldp
              (fun m => sdErase m (st.nameOf c))).updChildren p
              (fun m => sdInsert m (st.nameOf c) c)).childrenOf p =
              sdInsert (st.childrenOf p) (st.nameOf c) c := by
            rw [childrenOf_updChildren_self _ (by rw [n_updChildren]; exact hp),
              childrenOf_updChildren_ne _ (fun h2 => hopne h2.symm)]
          have hch2 : ((st.updChildren oldp
              (fun m => sdErase m (st.nameOf c))).updChildren p
              (fun m => sdInsert m (st.nameOf c) c)).childrenOf oldp =
              sdErase (st.childrenOf oldp) (st.nameOf c) := by
            rw [childrenOf_updChildren_ne _ hopne,
              childrenOf_updChildren_self _ holdp]
          refine WF.reattach hwf hc
            (by rw [n_updParent, n_updChildren, n_updChildren])
            (fun j => by rw [nameOf_updParent, nameOf_updChildren, nameOf_updChildren])
            (fun j hj => by
              rw [parentOf_updParent_ne _ hj, parentOf_updChildren, parentOf_updChildren])
            (parentOf_updParent_self _ (by rw [n_updChildren, n_updChildren]; exact hc))
            ?_ ?_ ?_ ?_
          · intro q hq e
            rw [childrenOf_updParent]
            by_cases hqp : q = p
            · subst hqp
              rw [hch1, insert_mem_iff_slow hwf hp hnotpar]
              constructor
              · rintro (⟨he, hv, hk⟩ | he)
                · exact .inl ⟨he, hv, fun h2 => hk h2.2⟩
                · exact .inr ⟨rfl, he⟩
              · rintro (⟨he, hv, hk⟩ | ⟨_, he⟩)
                · exact .inl ⟨he, hv, fun h2 => hk ⟨rfl, h2⟩⟩
                · exact .inr he
            · by_cases hqo : q = oldp
              · subst hqo
                rw [hch2, erase_self_mem_iff hwf hc holdp hold]
                constructor
                · rintro ⟨he, hv⟩
                  refine .inl ⟨he, hv, ?_⟩
                  rintro ⟨hq2, _⟩
                  exact hqp (Option.some.inj hq2).symm
                · rintro (⟨he, hv, _⟩ | ⟨hq2, _⟩)
                  · exact ⟨he, hv⟩
                  · exact absurd (Option.some.inj hq2).symm hqp
              · rw [childrenOf_updChildren_ne _ hqp, childrenOf_updChildren_ne _ hqo]
                constructor
                · intro he
                  refine .inl ⟨he, not_child_val hwf hq (parent_ne_of_hold hold hqo)
                    he, ?_⟩
                  rintro ⟨hq2, _⟩
                  exact hqp (Option.some.inj hq2).symm
                · rintro (⟨he, _, _⟩ | ⟨hq2, _⟩)
                  · exact he
                  · exact absurd (Option.some.inj hq2).symm hqp
          · intro q hq
            rw [childrenOf_updParent]
            by_cases hqp : q = p
            · subst hqp
              rw [hch1]
              exact sdInsert_sorted (hwf.sorted q hq)
            · by_cases hqo : q = oldp
              · subst hqo
                rw [hch2]
                exact sdErase_sorted (hwf.sorted q hq)
              · rw [childrenOf_updChildren_ne _ hqp, childrenOf_updChildren_ne _ hqo]
                exact hwf.sorted q hq
          · intro q hq e he _ hek
            have hqp : q = p := (Option.some.inj hq).symm
            subst hqp
            exact hfreep e he hek
          · intro q hq
            have hqp : q = p := (Option.some.inj hq).symm
            subst hqp
            exact ⟨hp, hpne, hnotanc⟩

theorem finishSetParent_not_error {st : TreeMem} {c : Nat} {par : Option Nat}
    {e : PyErr} {st2 : TreeMem} (h : finishSetParent st c par = .error e st2) : False := by
  unfold finishSetParent at h
  cases h

theorem set_parent_error_eq {st : TreeMem} {c : Nat} {par : Option Nat} {e : PyErr}
    {st2 : TreeMem} (h : NamedTreeNode.set_parent st c par = .error e st2) : st2 = st := by
  unfold NamedTreeNode.set_parent at h
  cases hv : (match par with
              | some p => verify_can_add_as_child st p c
              | none => .ok ()) with
  | error e2 =>
    rw [hv] at h
    injection h with h1 h2
    rw [h2]
  | ok u =>
    cases u
    rw [hv] at h
    cases hold : st.parentOf c with
    | none =>
      rw [hold] at h
      exact absurd h (fun h2 => finishSetParent_not_error h2)
    | some oldp =>
      rw [hold] at h
      have h2 : (if sdContains (st.childrenOf oldp) (st.nameOf c) = true then
          finishSetParent (st.updChildren oldp (fun m => sdErase m (st.nameOf c))) c par
        else OpResult.error PyErr.keyError st) = OpResult.error e st2 := h
      by_cases hcont : sdContains (st.childrenOf oldp) (st.nameOf c) = true
      · rw [if_pos hcont] at h2
        exact absurd h2 (fun h3 => finishSetParent_not_error h3)
      · rw [if_neg hcont] at h2
        injection h2 with h3 h4
        rw [h4]

theorem remove_child_ok_wf {st : TreeMem} {self : Nat} {nm : PyStr} (hwf : WF st)
    (hself : self < st.n) :
    (∀ e st2, NamedTreeNode.remove_child st self nm = .error e st2 → st2 = st) ∧
    (∀ st2, NamedTreeNode.remove_child st self nm = .ok st2 → WF st2 ∧ st2.n = st.n) := by
  unfold NamedTreeNode.remove_child
  cases hg : sdGet? (st.childrenOf self) nm with
  | none =>
    constructor
    · intro e st2 h
      cases h
    · intro st2 h
      injection h with h1
      rw [← h1]
      exact ⟨hwf, rfl⟩
  | some c =>
    have hclt : c < st.n := hwf.child_lt self hself (nm, c) (sdGet?_mem hg)
    constructor
    · intro e st2 h
      exact set_parent_error_eq h
    · intro st2 h
      exact set_parent_ok_wf hwf hclt (fun q hq => by cases hq) h

theorem set_name_noop_eq {st : TreeMem} {self : Nat} {nm : PyStr}
    (h0 : nm = st.nameOf self) :
    NamedTreeNode.set_name st self nm = .ok st := by
  unfold NamedTreeNode.set_name
  rw [if_pos h0]

theorem set_name_invalid_eq {st : TreeMem} {self : Nat} {nm : PyStr} {e1 : PyErr}
    (h0 : ¬ nm = st.nameOf self) (hv : verify_name_valid nm = .error e1) :
    NamedTreeNode.set_name st self nm = .error e1 st := by
  unfold NamedTreeNode.set_name
  rw [if_neg h0, hv]

theorem set_name_root_eq {st : TreeMem} {self : Nat} {nm : PyStr}
    (h0 : ¬ nm = st.nameOf self) (hv : verify_name_valid nm = .ok ())
    (hold : st.parentOf self = none) :
    NamedTreeNode.set_name st self nm = .ok (st.updName self nm) := by
  unfold NamedTreeNode.set_name
  rw [if_neg h0, hv, hold]

theorem set_name_avail_error_eq {st : TreeMem} {self p : Nat} {nm : PyStr} {e1 : PyErr}
    (h0 : ¬ nm = st.nameOf self) (hv : verify_name_valid nm = .ok ())
    (hold : st.parentOf self = some p)
    (havail : verify_child_name_available st p nm = .error e1) :
    NamedTreeNode.set_name st self nm = .error e1 st := by
  unfold NamedTreeNode.set_name
  rw [if_neg h0, hv, hold]
  show (match verify_child_name_available st p nm with
        | Except.error e => OpResult.error e st
        | Except.ok _ =>
          match NamedTreeNode.remove_child st p (st.nameOf self) with
          | OpResult.error e st1 => OpResult.error e st1
          | OpResult.ok st1 =>
            NamedTreeNode.add_child (st1.updName self nm) p self) =
      OpResult.error e1 st
  rw [havail]

theorem set_name_main_eq {st : TreeMem} {self p : Nat} {nm : PyStr}
    (h0 : ¬ nm = st.nameOf self) (hv : verify_name_valid nm = .ok ())
    (hold : st.parentOf self = some p)
    (havail : verify_child_name_available st p nm = .ok ()) :
    NamedTreeNode.set_name st self nm =
      (match NamedTreeNode.remove_child st p (st.nameOf self) with
       | OpResult.error e st1 => OpResult.error e st1
       | OpResult.ok st1 => NamedTreeNode.add_child (st1.updName self nm) p self) := by
  unfold NamedTreeNode.set_name
  rw [if_neg h0, hv, hold]
  show (match verify_child_name_available st p nm with
        | Except.error e => OpResult.error e st
        | Except.ok _ =>
          match NamedTreeNode.remove_child st p (st.nameOf self) with
          | OpResult.error e st1 => OpResult.error e st1
          | OpResult.ok st1 =>
            NamedTreeNode.add_child (st1.updName self nm) p self) = _
  rw [havail]

theorem set_name_result {st : TreeMem} {self : Nat} {nm : PyStr} (hwf : WF st)
    (hself : self < st.n) :
    (∀ e st2, NamedTreeNode.set_name st self nm = .error e st2 → st2 = st) ∧
    (∀ st2, NamedTreeNode.set_name st self nm = .ok st2 → WF st2 ∧ st2.n = st.n) := by
  by_cases h0 : nm = st.nameOf self
  · rw [set_name_noop_eq h0]
    refine ⟨fun e st2 h => ?_, fun st2 h => ?_⟩
    · cases h
    · injection h with h1
      rw [← h1]
      exact ⟨hwf, rfl⟩
  · cases hv : verify_name_valid nm with
    | error e1 =>
      rw [set_name_invalid_eq h0 hv]
      refine ⟨fun e st2 h => ?_, fun st2 h => ?_⟩
      · injection h with h1 h2
        rw [h2]
      · cases h
    | ok u =>
      cases u
      cases hold : st.parentOf self with
      | none =>
        rw [set_name_root_eq h0 hv hold]
        refine ⟨fun e st2 h => ?_, fun st2 h => ?_⟩
        · cases h
        · injection h with h1
          rw [← h1]
          exact ⟨WF.rename_root hwf hself hold hv, n_updName ..⟩
      | some p =>
        have hplt2 : p < st.n := hwf.parent_lt self hself p hold
        cases havail : verify_child_name_available st p nm with
        | error e1 =>
          rw [set_name_avail_error_eq h0 hv hold havail]
          refine ⟨fun e st2 h => ?_, fun st2 h => ?_⟩
          · injection h with h1 h2
            rw [h2]
          · cases h
        | ok u =>
          cases u
          obtain ⟨hnmv, hchcp, hncont⟩ := verify_child_name_available_ok.mp havail
          have hg : sdGet? (st.childrenOf p) (st.nameOf self) = some self :=
            (sdGet?_iff (hwf.sorted p hplt2)).mpr (hwf.mirror_up self hself p hold)
          have hsp := set_parent_none_eq hwf hself
          rw [hold] at hsp
          have hsp2 : NamedTreeNode.set_parent st self none = .ok
              ((st.updChildren p (fun m => sdErase m (st.nameOf self))).updParent
                self none) := hsp
          have hrem : NamedTreeNode.remove_child st p (st.nameOf self) = .ok
              ((st.updChildren p (fun m => sdErase m (st.nameOf self))).updParent
                self none) := by
            unfold NamedTreeNode.remove_child
            rw [hg]
            exact hsp2
          set st1 := (st.updChildren p
            (fun m => sdErase m (st.nameOf self))).updParent self none with hst1
          have hwf1 := set_parent_ok_wf hwf hself (fun q hq => by cases hq) hsp2
          have hn1 : st1.n = st.n := hwf1.2
          have hself1 : self < st1.n := by rw [hn1]; exact hself
          have hroot1 : st1.parentOf self = none := by
            rw [hst1]
            exact parentOf_updParent_self _ (by rw [n_updChildren]; exact hself)
          have hwf2 : WF (st1.updName self nm) :=
            WF.rename_root hwf1.1 hself1 hroot1 hv
          set stR := st1.updName self nm with hstR
          have hnR : stR.n = st.n := by rw [hstR, n_updName, hn1]
          have hselfR : self < stR.n := by rw [hnR]; exact hself
          have hpltR : p < stR.n := by rw [hnR]; exact hplt2
          have hnameR : stR.nameOf self = nm := by
            rw [hstR]
            exact nameOf_updName_self _ hself1
          have hchRw : stR.childrenOf p =
              sdErase (st.childrenOf p) (st.nameOf self) := by
            rw [hstR, childrenOf_updName, hst1, childrenOf_updParent,
              childrenOf_updChildren_self _ hplt2]
          have hchcR : (stR.recD p).can_have_children = true := by
            rw [hstR, chc_updName, hst1, chc_updParent, chc_updChildren]
            exact hchcp
          have hncontR : sdContains (stR.childrenOf p) (stR.nameOf self) = false := by
            rw [hnameR, hchRw]
            cases hcc : sdContains (sdErase (st.childrenOf p) (st.nameOf self)) nm with
            | false => rfl
            | true =>
              exfalso
              obtain ⟨v, hvmem⟩ := sdContains_iff.mp hcc
              have hmem2 := ((mem_sdErase (hwf.sorted p hplt2)).mp hvmem).1
              rw [sdContains_iff.mpr ⟨v, hmem2⟩] at hncont
              cases hncont
          have hpneR : ¬ p = self := parent_ne_self_of_wf hwf hold
          have hparR : ∀ j, ¬ j = self → stR.parentOf j = st.parentOf j := by
            intro j hj
            rw [hstR, parentOf_updName, hst1, parentOf_updParent_ne _ hj,
              parentOf_updChildren]
          have hnancR : ¬ self ∈ stR.ancestorsOf p := by
            intro hmem
            obtain ⟨k, hk⟩ := isAnc_of_mem_ancestors hmem
            exact no_new_path_to_c
              (fun j hj => hparR j hj) (not_anc_of_parent hwf hold) hpneR (k + 1) hk
          have hvR : verify_can_add_as_child stR p self = .ok () := by
            apply verify_can_add_ok_slow
            · rw [hnameR]
              exact hv
            · exact hchcR
            · exact hncontR
            · exact hpneR
            · exact hnancR
          have hfin := set_parent_some_eq hwf2 hselfR hvR
          have heq := set_name_main_eq h0 hv hold havail
          rw [hrem] at heq
          have heq2 : NamedTreeNode.set_name st self nm =
              NamedTreeNode.set_parent stR self (some p) := heq
          rw [heq2]
          refine ⟨fun e st2 h => ?_, fun st2 h => ?_⟩
          · rw [hfin] at h
            cases h
          · have hres := set_parent_ok_wf hwf2 hselfR (fun q hq => by
              injection hq with hq2
              rw [← hq2]
              exact hpltR) h
            exact ⟨hres.1, by rw [hres.2, hnR]⟩

theorem treeOp_error_eq {st : TreeMem} (op : TreeOp) (hwf : WF st)
    (hval : op.valid st = true) :
    ∀ e st2, TreeOp.apply st op = .error e st2 → st2 = st := by
  cases op with
  | add p c =>
    intro e st2 h
    have h2 : NamedTreeNode.set_parent st c (some p) = OpResult.error e st2 := h
    exact set_parent_error_eq h2
  | remove p nm =>
    have hp : p < st.n := by
      simp [TreeOp.valid] at hval
      exact hval
    exact (remove_child_ok_wf hwf hp).1
  | rename i nm =>
    have hi : i < st.n := by
      simp [TreeOp.valid] at hval
      exact hval
    exact (set_name_result hwf hi).1
  | reparent i po =>
    intro e st2 h
    have h2 : NamedTreeNode.set_parent st i po = OpResult.error e st2 := h
    exact set_parent_error_eq h2

theorem treeOp_state_wf {st : TreeMem} (op : TreeOp) (hwf : WF st)
    (hval : op.valid st = true) :
    WF (TreeOp.apply st op).state ∧ (TreeOp.apply st op).state.n = st.n := by
  cases op with
  | add p c =>
    have h1 : p < st.n ∧ c < st.n := by
      simp [TreeOp.valid] at hval
      exact hval
    show WF (NamedTreeNode.add_child st p c).state ∧
      (NamedTreeNode.add_child st p c).state.n = st.n
    cases hres : NamedTreeNode.add_child st p c with
    | error e st2 =>
      have hst2 : st2 = st := set_parent_error_eq hres
      show WF st2 ∧ st2.n = st.n
      rw [hst2]
      exact ⟨hwf, rfl⟩
    | ok st2 =>
      show WF st2 ∧ st2.n = st.n
      have hres2 : NamedTreeNode.set_parent st c (some p) = .ok st2 := hres
      exact set_parent_ok_wf hwf h1.2 (fun q hq => by
        injection hq with hq2
        rw [← hq2]
        exact h1.1) hres2
  | remove p nm =>
    have hp : p < st.n := by
      simp [TreeOp.valid] at hval
      exact hval
    show WF (NamedTreeNode.remove_child st p nm).state ∧
      (NamedTreeNode.remove_child st p nm).state.n = st.n
    cases hres : NamedTreeNode.remove_child st p nm with
    | error e st2 =>
      have hst2 : st2 = st := (remove_child_ok_wf hwf hp).1 e st2 hres
      show WF st2 ∧ st2.n = st.n
      rw [hst2]
      exact ⟨hwf, rfl⟩
    | ok st2 =>
      show WF st2 ∧ st2.n = st.n
      exact (remove_child_ok_wf hwf hp).2 st2 hres
  | rename i nm =>
    have hi : i < st.n := by
      simp [TreeOp.valid] at hval
      exact hval
    show WF (NamedTreeNode.set_name st i nm).state ∧
      (NamedTreeNode.set_name st i nm).state.n = st.n
    cases hres : NamedTreeNode.set_name st i nm with
    | error e st2 =>
      have hst2 : st2 = st := (set_name_result hwf hi).1 e st2 hres
      show WF st2 ∧ st2.n = st.n
      rw [hst2]
      exact ⟨hwf, rfl⟩
    | ok st2 =>
      show WF st2 ∧ st2.n = st.n
      exact (set_name_result hwf hi).2 st2 hres
  | reparent i po =>
    show WF (NamedTreeNode.set_parent st i po).state ∧
      (NamedTreeNode.set_parent st i po).state.n = st.n
    have hi : i < st.n := by
      simp [TreeOp.valid] at hval
      exact hval.1
    have hpq : ∀ q, po = some q → q < st.n := by
      intro q hq
      rw [hq] at hval
      simp [TreeOp.valid] at hval
      exact hval.2
    cases hres : NamedTreeNode.set_parent st i po with
    | error e st2 =>
      have hst2 : st2 = st := set_parent_error_eq hres
      show WF st2 ∧ st2.n = st.n
      rw [hst2]
      exact ⟨hwf, rfl⟩
    | ok st2 =>
      show WF st2 ∧ st2.n = st.n
      exact set_parent_ok_wf hwf hi hpq hres

theorem runOps_wf {ops : List TreeOp} : ∀ {st : TreeMem}, WF st → WF (runOps st ops) := by
  induction ops with
  | nil =>
    intro st hwf
    exact hwf
  | cons op rest ih =>
    intro st hwf
    show WF (if op.valid st then runOps (op.apply st).state rest else runOps st rest)
    by_cases hv : op.valid st = true
    · rw [if_pos hv]
      exact ih (treeOp_state_wf op hwf hv).1
    · rw [if_neg hv]
      exact ih hwf

theorem wf_sibling_unique {st : TreeMem} (hwf : WF st) : SiblingNamesUnique st := by
  intro q hq e he f hf hne hnm
  have h1 := (hwf.mirror_down q hq e he).1
  have h2 := (hwf.mirror_down q hq f hf).1
  have hk : e.1 = f.1 := by rw [← h1, ← h2, hnm]
  have hef := sdSorted_key_inj (hwf.sorted q hq) he hf hk
  rw [hef] at hne
  exact hne rfl

/-- C5: starting from any well-formed tree, after every sequence of add_child,
remove_child, rename and reparent operations (including ones that fail
validation) any two distinct children of one parent carry different names, and
an operation that raises a validation error leaves every node's name, parent
reference and children map exactly as they were before the call. -/
theorem tree_ops_keep_siblings_unique {st : TreeMem} (hwf : WF st) (ops : List TreeOp) :
    SiblingNamesUnique (runOps st ops) ∧
    (∀ op : TreeOp, op.valid st = true →
      ∀ e st2, TreeOp.apply st op = .error e st2 → st2 = st) :=
  ⟨wf_sibling_unique (runOps_wf hwf), fun op hval => treeOp_error_eq op hwf hval⟩

theorem tree_ops_keep_siblings_unique_witness :
    SiblingNamesUnique (runOps (TreeMem.mk
        [⟨['r'], none, [(['c'], 1)], true⟩, ⟨['c'], some 0, [], true⟩])
      [TreeOp.rename 1 ['b'], TreeOp.reparent 1 none, TreeOp.add 0 1]) ∧
    (∀ op : TreeOp,
      op.valid (TreeMem.mk
        [⟨['r'], none, [(['c'], 1)], true⟩, ⟨['c'], some 0, [], true⟩]) = true →
      ∀ e st2,
        TreeOp.apply (TreeMem.mk
          [⟨['r'], none, [(['c'], 1)], true⟩, ⟨['c'], some 0, [], true⟩]) op =
          .error e st2 →
        st2 = TreeMem.mk
          [⟨['r'], none, [(['c'], 1)], true⟩, ⟨['c'], some 0, [], true⟩]) :=
  tree_ops_keep_siblings_unique
    ⟨by decide, by decide, by decide, by decide, by decide, by decide, by decide,
      by decide⟩
    [TreeOp.rename 1 ['b'], TreeOp.reparent 1 none, TreeOp.add 0 1]

theorem verify_child_name_chc_error {st : TreeMem} {p : Nat} {nm : PyStr}
    (hv : verify_name_valid nm = .ok ())
    (hchc : (st.recD p).can_have_children = false) :
    verify_child_name_available st p nm = .error .notAllowedChildren := by
  unfold verify_child_name_available
  rw [hv]
  show (if (st.recD p).can_have_children = false then
          Except.error PyErr.notAllowedChildren
        else if sdContains (st.childrenOf p) nm then Except.error PyErr.nameConflict
        else Except.ok ()) = Except.error PyErr.notAllowedChildren
  rw [if_pos hchc]

theorem verify_child_name_conflict_error {st : TreeMem} {p : Nat} {nm : PyStr}
    (hv : verify_name_valid nm = .ok ())
    (hchc : (st.recD p).can_have_children = true)
    (hcont : sdContains (st.childrenOf p) nm = true) :
    verify_child_name_available st p nm = .error .nameConflict := by
  unfold verify_child_name_available
  rw [hv]
  show (if (st.recD p).can_have_children = false then
          Except.error PyErr.notAllowedChildren
        else if sdContains (st.childrenOf p) nm then Except.error PyErr.nameConflict
        else Except.ok ()) = Except.error PyErr.nameConflict
  rw [if_neg (by rw [hchc]; exact fun hc => by cases hc), if_pos hcont]

theorem verify_can_add_avail_error {st : TreeMem} {p node : Nat} {e : PyErr}
    (hfast : ¬ sdGet? (st.childrenOf p) (st.nameOf node) = some node)
    (havail : verify_child_name_available st p (st.nameOf node) = .error e) :
    verify_can_add_as_child st p node = .error e := by
  unfold verify_can_add_as_child
  rw [if_neg hfast, havail]
  rfl

theorem verify_can_add_self_error {st : TreeMem} {node : Nat}
    (hfast : ¬ sdGet? (st.childrenOf node) (st.nameOf node) = some node)
    (havail : verify_child_name_available st node (st.nameOf node) = .ok ()) :
    verify_can_add_as_child st node node = .error .selfChild := by
  unfold verify_can_add_as_child
  rw [if_neg hfast, havail]
  show (if node = node then Except.error PyErr.selfChild
        else if node ∈ st.ancestorsOf node then Except.error PyErr.cycleErr
        else Except.ok ()) = Except.error PyErr.selfChild
  rw [if_pos rfl]

theorem verify_can_add_cycle_error {st : TreeMem} {p node : Nat}
    (hfast : ¬ sdGet? (st.childrenOf p) (st.nameOf node) = some node)
    (havail : verify_child_name_available st p (st.nameOf node) = .ok ())
    (hps : ¬ p = node) (hanc : node ∈ st.ancestorsOf p) :
    verify_can_add_as_child st p node = .error .cycleErr := by
  unfold verify_can_add_as_child
  rw [if_neg hfast, havail]
  show (if p = node then Except.error PyErr.selfChild
        else if node ∈ st.ancestorsOf p then Except.error PyErr.cycleErr
        else Except.ok ()) = Except.error PyErr.cycleErr
  rw [if_neg hps, if_pos hanc]

theorem reparent_verify_error {st : TreeMem} {node p : Nat} {e : PyErr}
    (hne : ¬ st.parentOf node = some p) (hpn : ¬ st.parentOf node = none)
    (hver : verify_can_add_as_child st p node = .error e) :
    reparent_node st node (some p) = .error e st := by
  unfold reparent_node
  rw [if_neg hne, if_neg hpn]
  show (match verify_can_add_as_child st p node with
        | Except.error e => OpResult.error e st
        | Except.ok _ => NamedTreeNode.set_parent st node (some p)) =
    OpResult.error e st
  rw [hver]

theorem reparent_verify_ok {st : TreeMem} {node p : Nat}
    (hne : ¬ st.parentOf node = some p) (hpn : ¬ st.parentOf node = none)
    (hver : verify_can_add_as_child st p node = .ok ()) :
    reparent_node st node (some p) = NamedTreeNode.set_parent st node (some p) := by
  unfold reparent_node
  rw [if_neg hne, if_neg hpn]
  show (match verify_can_add_as_child st p node with
        | Except.error e => OpResult.error e st
        | Except.ok _ => NamedTreeNode.set_parent st node (some p)) =
    NamedTreeNode.set_parent st node (some p)
  rw [hver]

theorem reparent_noop {st : TreeMem} {node : Nat} {new_parent : Option Nat}
    (h : st.parentOf node = new_parent) :
    reparent_node st node new_parent = .ok st := by
  unfold reparent_node
  rw [if_pos h]

theorem reparent_root_error {st : TreeMem} {node : Nat} {new_parent : Option Nat}
    (h : ¬ st.parentOf node = new_parent) (hpn : st.parentOf node = none) :
    reparent_node st node new_parent = .error .rootReparent st := by
  unfold reparent_node
  rw [if_neg h, if_pos hpn]

theorem reparent_new_root_error {st : TreeMem} {node : Nat}
    (hpn : ¬ st.parentOf node = none) :
    reparent_node st node none = .error .newRoot st := by
  unfold reparent_node
  rw [if_neg hpn, if_neg hpn]

theorem no_fast_path {st : TreeMem} (hwf : WF st) {node p : Nat} (hp : p < st.n)
    (hne : ¬ st.parentOf node = some p) :
    ¬ sdGet? (st.childrenOf p) (st.nameOf node) = some node := by
  intro hg
  have hmem := sdGet?_mem hg
  exact hne ((hwf.mirror_down p hp _ hmem).2)

/-- C6 counterexample: for a root node and new parent None the claim demands a
RootImmutable error, but the no-op check precedes the root checks in
reparent_node, so reparenting a root to None succeeds as a no-op. -/
theorem reparent_root_none_noop :
    (TreeMem.mk [⟨['r'], none, [], true⟩]).parentOf 0 = none ∧
    reparent_node (TreeMem.mk [⟨['r'], none, [], true⟩]) 0 none =
      .ok (TreeMem.mk [⟨['r'], none, [], true⟩]) := by
  decide

/-- C6 (amended): on a well-formed tree, reparent_node first returns a
successful no-op whenever the new parent equals the current parent reference
(even when both are None, i.e. on a root); only then it fails on a root node
(rootReparent) and on a None target (newRoot); for a proper move to p it fails
with notAllowedChildren when p cannot have children, else with nameConflict
when p already has a (necessarily different) child under the node's name, else
with selfChild when p is the node itself, else with cycleErr when the node is
a strict ancestor of p, and otherwise succeeds, detaching the node from its
old parent and inserting it under p. -/
theorem reparent_node_cases {st : TreeMem} (hwf : WF st) {node : Nat}
    (hnode : node < st.n) :
    ∀ new_parent : Option Nat,
      (st.parentOf node = new_parent → reparent_node st node new_parent = .ok st) ∧
      (¬ st.parentOf node = new_parent → st.parentOf node = none →
        reparent_node st node new_parent = .error .rootReparent st) ∧
      (¬ st.parentOf node = none → new_parent = none →
        reparent_node st node new_parent = .error .newRoot st) ∧
      (∀ p oldp, p < st.n → new_parent = some p → st.parentOf node = some oldp →
        ¬ oldp = p →
        ((st.recD p).can_have_children = false →
          reparent_node st node new_parent = .error .notAllowedChildren st) ∧
        ((st.recD p).can_have_children = true →
          sdContains (st.childrenOf p) (st.nameOf node) = true →
          reparent_node st node new_parent = .error .nameConflict st) ∧
        ((st.recD p).can_have_children = true →
          sdContains (st.childrenOf p) (st.nameOf node) = false → p = node →
          reparent_node st node new_parent = .error .selfChild st) ∧
        ((st.recD p).can_have_children = true →
          sdContains (st.childrenOf p) (st.nameOf node) = false → ¬ p = node →
          node ∈ st.ancestorsOf p →
          reparent_node st node new_parent = .error .cycleErr st) ∧
        ((st.recD p).can_have_children = true →
          sdContains (st.childrenOf p) (st.nameOf node) = false → ¬ p = node →
          ¬ node ∈ st.ancestorsOf p →
          reparent_node st node new_parent = .ok
            (((st.updChildren oldp
                (fun m => sdErase m (st.nameOf node))).updChildren p
              (fun m => sdInsert m (st.nameOf node) node)).updParent node
              (some p)))) := by
  intro new_parent
  refine ⟨fun h => reparent_noop h, fun h hpn => reparent_root_error h hpn,
    fun hpn hnew => ?_, fun p oldp hp hnew hold hop => ?_⟩
  · rw [hnew]
    exact reparent_new_root_error hpn
  · subst hnew
    have hne : ¬ st.parentOf node = some p := by
      intro hc
      rw [hold] at hc
      injection hc with hc2
      exact hop hc2
    have hpn : ¬ st.parentOf node = none := by
      intro hc
      rw [hold] at hc
      cases hc
    have hfast := no_fast_path hwf hp hne
    have hv := hwf.names_ok node hnode
    refine ⟨fun hchc => ?_, fun hchc hcont => ?_, fun hchc hcont hps => ?_,
      fun hchc hcont hps hanc => ?_, fun hchc hcont hps hanc => ?_⟩
    · exact reparent_verify_error hne hpn
        (verify_can_add_avail_error hfast (verify_child_name_chc_error hv hchc))
    · exact reparent_verify_error hne hpn
        (verify_can_add_avail_error hfast
          (verify_child_name_conflict_error hv hchc hcont))
    · subst hps
      exact reparent_verify_error hne hpn
        (verify_can_add_self_error hfast
          (verify_child_name_available_ok.mpr ⟨hv, hchc, hcont⟩))
    · exact reparent_verify_error hne hpn
        (verify_can_add_cycle_error hfast
          (verify_child_name_available_ok.mpr ⟨hv, hchc, hcont⟩) hps hanc)
    · have hver := verify_can_add_ok_slow hv hchc hcont hps hanc
      rw [reparent_verify_ok hne hpn hver, set_parent_some_eq hwf hnode hver, hold]

theorem reparent_node_cases_witness :
    ((TreeMem.mk [⟨['r'], none, [(['a'], 1)], true⟩, ⟨['a'], some 0, [], true⟩]).parentOf 1 = some 0 →
      reparent_node (TreeMem.mk [⟨['r'], none, [(['a'], 1)], true⟩, ⟨['a'], some 0, [], true⟩]) 1 (some 0) =
        .ok (TreeMem.mk [⟨['r'], none, [(['a'], 1)], true⟩, ⟨['a'], some 0, [], true⟩])) ∧
    (¬ (TreeMem.mk [⟨['r'], none, [(['a'], 1)], true⟩, ⟨['a'], some 0, [], true⟩]).parentOf 1 = some 0 →
      (TreeMem.mk [⟨['r'], none, [(['a'], 1)], true⟩, ⟨['a'], some 0, [], true⟩]).parentOf 1 = none →
      reparent_node (TreeMem.mk [⟨['r'], none, [(['a'], 1)], true⟩, ⟨['a'], some 0, [], true⟩]) 1 (some 0) =
        .error .rootReparent (TreeMem.mk [⟨['r'], none, [(['a'], 1)], true⟩, ⟨['a'], some 0, [], true⟩])) ∧
    (¬ (TreeMem.mk [⟨['r'], none, [(['a'], 1)], true⟩, ⟨['a'], some 0, [], true⟩]).parentOf 1 = none → (some 0 : Option Nat) = none →
      reparent_node (TreeMem.mk [⟨['r'], none, [(['a'], 1)], true⟩, ⟨['a'], some 0, [], true⟩]) 1 (some 0) =
        .error .newRoot (TreeMem.mk [⟨['r'], none, [(['a'], 1)], true⟩, ⟨['a'], some 0, [], true⟩])) ∧
    (∀ p oldp, p < (TreeMem.mk [⟨['r'], none, [(['a'], 1)], true⟩, ⟨['a'], some 0, [], true⟩]).n → (some 0 : Option Nat) = some p →
      (TreeMem.mk [⟨['r'], none, [(['a'], 1)], true⟩, ⟨['a'], some 0, [], true⟩]).parentOf 1 = some oldp →
      ¬ oldp = p →
      (((TreeMem.mk [⟨['r'], none, [(['a'], 1)], true⟩, ⟨['a'], some 0, [], true⟩]).recD p).can_have_children = false →
        reparent_node (TreeMem.mk [⟨['r'], none, [(['a'], 1)], true⟩, ⟨['a'], some 0, [], true⟩]) 1 (some 0) =
          .error .notAllowedChildren (TreeMem.mk [⟨['r'], none, [(['a'], 1)], true⟩, ⟨['a'], some 0, [], true⟩])) ∧
      (((TreeMem.mk [⟨['r'], none, [(['a'], 1)], true⟩, ⟨['a'], some 0, [], true⟩]).recD p).can_have_children = true →
        sdContains ((TreeMem.mk [⟨['r'], none, [(['a'], 1)], true⟩, ⟨['a'], some 0, [], true⟩]).childrenOf p)
          ((TreeMem.mk [⟨['r'], none, [(['a'], 1)], true⟩, ⟨['a'], some 0, [], true⟩]).nameOf 1) = true →
        reparent_node (TreeMem.mk [⟨['r'], none, [(['a'], 1)], true⟩, ⟨['a'], some 0, [], true⟩]) 1 (some 0) =
          .error .nameConflict (TreeMem.mk [⟨['r'], none, [(['a'], 1)], true⟩, ⟨['a'], some 0, [], true⟩])) ∧
      (((TreeMem.mk [⟨['r'], none, [(['a'], 1)], true⟩, ⟨['a'], some 0, [], true⟩]).recD p).can_have_children = true →
        sdContains ((TreeMem.mk [⟨['r'], none, [(['a'], 1)], true⟩, ⟨['a'], some 0, [], true⟩]).childrenOf p)
          ((TreeMem.mk [⟨['r'], none, [(['a'], 1)], true⟩, ⟨['a'], some 0, [], true⟩]).nameOf 1) = false → p = 1 →
        reparent_node (TreeMem.mk [⟨['r'], none, [(['a'], 1)], true⟩, ⟨['a'], some 0, [], true⟩]) 1 (some 0) =
          .error .selfChild (TreeMem.mk [⟨['r'], none, [(['a'], 1)], true⟩, ⟨['a'], some 0, [], true⟩])) ∧
      (((TreeMem.mk [⟨['r'], none, [(['a'], 1)], true⟩, ⟨['a'], some 0, [], true⟩]).recD p).can_have_children = true →
        sdContains ((TreeMem.mk [⟨['r'], none, [(['a'], 1)], true⟩, ⟨['a'], some 0, [], true⟩]).childrenOf p)
          ((TreeMem.mk [⟨['r'], none, [(['a'], 1)], true⟩, ⟨['a'], some 0, [], true⟩]).nameOf 1) = false → ¬ p = 1 →
        1 ∈ (TreeMem.mk [⟨['r'], none, [(['a'], 1)], true⟩, ⟨['a'], some 0, [], true⟩]).ancestorsOf p →
        reparent_node (TreeMem.mk [⟨['r'], none, [(['a'], 1)], true⟩, ⟨['a'], some 0, [], true⟩]) 1 (some 0) =
          .error .cycleErr (TreeMem.mk [⟨['r'], none, [(['a'], 1)], true⟩, ⟨['a'], some 0, [], true⟩])) ∧
      (((TreeMem.mk [⟨['r'], none, [(['a'], 1)], true⟩, ⟨['a'], some 0, [], true⟩]).recD p).can_have_children = true →
        sdContains ((TreeMem.mk [⟨['r'], none, [(['a'], 1)], true⟩, ⟨['a'], some 0, [], true⟩]).childrenOf p)
          ((TreeMem.mk [⟨['r'], none, [(['a'], 1)], true⟩, ⟨['a'], some 0, [], true⟩]).nameOf 1) = false → ¬ p = 1 →
        ¬ 1 ∈ (TreeMem.mk [⟨['r'], none, [(['a'], 1)], true⟩, ⟨['a'], some 0, [], true⟩]).ancestorsOf p →
        reparent_node (TreeMem.mk [⟨['r'], none, [(['a'], 1)], true⟩, ⟨['a'], some 0, [], true⟩]) 1 (some 0) = .ok
          (((((TreeMem.mk [⟨['r'], none, [(['a'], 1)], true⟩, ⟨['a'], some 0, [], true⟩]).updChildren oldp
              (fun m => sdErase m ((TreeMem.mk [⟨['r'], none, [(['a'], 1)], true⟩, ⟨['a'], some 0, [], true⟩]).nameOf 1))).updChildren p
            (fun m => sdInsert m ((TreeMem.mk [⟨['r'], none, [(['a'], 1)], true⟩, ⟨['a'], some 0, [], true⟩]).nameOf 1) 1)).updParent 1
            (some p))))) :=
  reparent_node_cases
    ⟨by decide, by decide, by decide, by decide, by decide, by decide, by decide,
      by decide⟩
    (by decide) (some 0)

theorem predict_not_contained {children : SdList Nat} {nm : PyStr} {node : Nat}
    (h : sdContains children nm = false) :
    SeqNode.predict_child_idx children nm node =
      .ok (sdIndex (sdInsert children nm node) nm) := by
  unfold SeqNode.predict_child_idx
  rw [if_neg (fun hc => by rw [h] at hc; cases hc)]

theorem child_idx_present {st2 : TreeMem} {parent : Nat} {nm : PyStr}
    (hcont : sdContains (st2.childrenOf parent) nm = true) :
    child_idx_from_name st2 parent nm = sdIndex (st2.childrenOf parent) nm := by
  unfold child_idx_from_name
  rw [if_pos hcont]

/-- C10: for every parent able to take children and every node whose name no
sibling of the parent owns (and whose insertion does not break the tree
shape), the child index predicted before the insertion equals the index the
inserted child actually occupies afterwards. -/
theorem predict_child_index_correct {st : TreeMem} (hwf : WF st)
    {parent c : Nat} (hp : parent < st.n) (hc : c < st.n)
    (hchc : (st.recD parent).can_have_children = true)
    (hncont : sdContains (st.childrenOf parent) (st.nameOf c) = false)
    (hpc : ¬ parent = c) (hnanc : ¬ c ∈ st.ancestorsOf parent) :
    ∃ st2,
      NamedTreeNode.add_child st parent c = .ok st2 ∧
      st2.nameOf c = st.nameOf c ∧
      SeqNode.predict_child_idx (st.childrenOf parent) (st.nameOf c) c =
        .ok (child_idx_from_name st2 parent (st2.nameOf c)) := by
  have hver := verify_can_add_ok_slow (hwf.names_ok c hc) hchc hncont hpc hnanc
  have hok := set_parent_some_eq hwf hc hver
  cases hold : st.parentOf c with
  | none =>
    rw [hold] at hok
    have hok2 : NamedTreeNode.add_child st parent c = .ok
        ((st.updChildren parent
          (fun m => sdInsert m (st.nameOf c) c)).updParent c (some parent)) := hok
    refine ⟨_, hok2, ?_, ?_⟩
    · rw [nameOf_updParent, nameOf_updChildren]
    · have hname2 : ((st.updChildren parent
          (fun m => sdInsert m (st.nameOf c) c)).updParent c
            (some parent)).nameOf c = st.nameOf c := by
        rw [nameOf_updParent, nameOf_updChildren]
      have hch2 : ((st.updChildren parent
          (fun m => sdInsert m (st.nameOf c) c)).updParent c
            (some parent)).childrenOf parent =
          sdInsert (st.childrenOf parent) (st.nameOf c) c := by
        rw [childrenOf_updParent, childrenOf_updChildren_self _ hp]
      have hcont2 : sdContains (((st.updChildren parent
          (fun m => sdInsert m (st.nameOf c) c)).updParent c
            (some parent)).childrenOf parent) (st.nameOf c) = true := by
        rw [hch2]
        exact sdContains_insert_self (hwf.sorted parent hp)
      rw [hname2, child_idx_present hcont2, hch2]
      exact predict_not_contained hncont
  | some oldp =>
    rw [hold] at hok
    have hopne : ¬ oldp = parent := by
      intro he
      subst he
      have hmem := hwf.mirror_up c hc oldp hold
      rw [sdContains_iff.mpr ⟨c, hmem⟩] at hncont
      cases hncont
    have hok2 : NamedTreeNode.add_child st parent c = .ok
        (((st.updChildren oldp
            (fun m => sdErase m (st.nameOf c))).updChildren parent
          (fun m => sdInsert m (st.nameOf c) c)).updParent c (some parent)) := hok
    refine ⟨_, hok2, ?_, ?_⟩
    · rw [nameOf_updParent, nameOf_updChildren, nameOf_updChildren]
    · have hname2 : (((st.updChildren oldp
            (fun m => sdErase m (st.nameOf c))).updChildren parent
          (fun m => sdInsert m (st.nameOf c) c)).updParent c
            (some parent)).nameOf c = st.nameOf c := by
        rw [nameOf_updParent, nameOf_updChildren, nameOf_updChildren]
      have hch2 : (((st.updChildren oldp
            (fun m => sdErase m (st.nameOf c))).updChildren parent
          (fun m => sdInsert m (st.nameOf c) c)).updParent c
            (some parent)).childrenOf parent =
          sdInsert (st.childrenOf parent) (st.nameOf c) c := by
        rw [childrenOf_updParent,
          childrenOf_updChildren_self _ (by rw [n_updChildren]; exact hp),
          childrenOf_updChildren_ne _ (fun he => hopne he.symm)]
      have hcont2 : sdContains ((((st.updChildren oldp
            (fun m => sdErase m (st.nameOf c))).updChildren parent
          (fun m => sdInsert m (st.nameOf c) c)).updParent c
            (some parent)).childrenOf parent) (st.nameOf c) = true := by
        rw [hch2]
        exact sdContains_insert_self (hwf.sorted parent hp)
      rw [hname2, child_idx_present hcont2, hch2]
      exact predict_not_contained hncont

theorem predict_child_index_correct_witness :
    ∃ st2,
      NamedTreeNode.add_child
        (TreeMem.mk [⟨['r'], none, [(['a'], 1)], true⟩, ⟨['a'], some 0, [], true⟩, ⟨['b'], none, [], true⟩]) 0 2 = .ok st2 ∧
      st2.nameOf 2 =
        (TreeMem.mk [⟨['r'], none, [(['a'], 1)], true⟩, ⟨['a'], some 0, [], true⟩, ⟨['b'], none, [], true⟩]).nameOf 2 ∧
      SeqNode.predict_child_idx
        ((TreeMem.mk [⟨['r'], none, [(['a'], 1)], true⟩, ⟨['a'], some 0, [], true⟩, ⟨['b'], none, [], true⟩]).childrenOf 0)
        ((TreeMem.mk [⟨['r'], none, [(['a'], 1)], true⟩, ⟨['a'], some 0, [], true⟩, ⟨['b'], none, [], true⟩]).nameOf 2) 2 =
        .ok (child_idx_from_name st2 0 (st2.nameOf 2)) :=
  predict_child_index_correct
    ⟨by decide, by decide, by decide, by decide, by decide, by decide, by decide,
      by decide⟩
    (by decide) (by decide) (by decide) (by decide) (by decide) (by decide)
